import Mathlib

/-!
# Verification of the TapHeir Bitcoin Taproot trust core

A shallow embedding of the repository's Bitcoin/oracle logic:

* the mock oracle service (`src/utils/mockOracle.js`): certificate issuance,
  verification, the rolling-fold string hash, certificate-id generation;
* the Taproot trust construction (`src/utils/bitcoin.js`): x-only key
  normalisation, leaf script assembly, tap-leaf/tap-branch hashing, the
  Taproot tweak, bech32m address encoding and address validation.

The repository delegates tagged hashing, Merkle-root computation, key
tweaking, bech32m coding and ECDSA signing to external libraries
(`bitcoinjs-lib`, `bech32`, `tiny-secp256k1`).  Those delegated parts are
modelled from the specification (BIP340/341/350 as referenced by the spec),
each marked `Modelled from the spec:` in its doc comment.  Pure JavaScript
code from the repository itself is translated directly.
-/

/-! ## Byte and hex utilities -/

/-- One hexadecimal digit character (lowercase), for `n < 16`. -/
def hexDigit (n : Nat) : Char :=
  if n < 10 then Char.ofNat (48 + n) else Char.ofNat (87 + n)

/-- Decimal digits of a natural number (JS `String(n)` / template literal).
The first argument is fuel, always called with `fuel = n`. -/
def natToDecAux : Nat → Nat → List Char
  | 0, _ => []
  | _ + 1, 0 => []
  | fuel + 1, n => natToDecAux fuel (n / 10) ++ [Char.ofNat (48 + n % 10)]

/-- Decimal rendering of a natural number, as JavaScript `${n}` produces. -/
def natToDec (n : Nat) : String :=
  if n = 0 then "0" else String.mk (natToDecAux n n)

/-- Hex digits of a natural number, no leading zeros (JS `n.toString(16)`),
empty for `0`.  The first argument is fuel, always called with `fuel = n`. -/
def natToHexAux : Nat → Nat → List Char
  | 0, _ => []
  | _ + 1, 0 => []
  | fuel + 1, n => natToHexAux fuel (n / 16) ++ [hexDigit (n % 16)]

/-- JS `n.toString(16)` for a natural number (lowercase hex). -/
def natToHex (n : Nat) : String :=
  if n = 0 then "0" else String.mk (natToHexAux n n)

/-- JS `String.prototype.padStart(width, '0')`. -/
def padStartZero (width : Nat) (s : String) : String :=
  String.mk (List.replicate (width - s.length) '0') ++ s

/-- Two-digit lowercase hex of one byte. -/
def byteToHex (b : Nat) : List Char :=
  [hexDigit (b / 16 % 16), hexDigit (b % 16)]

/-- Lowercase hex string of a byte list (Node `buf.toString('hex')`). -/
def bytesToHex (bs : List Nat) : String :=
  String.mk (bs.flatMap byteToHex)

/-- Value of one hex digit character, uppercase or lowercase. -/
def hexDigitVal (c : Char) : Option Nat :=
  if 48 ≤ c.toNat ∧ c.toNat ≤ 57 then some (c.toNat - 48)
  else if 97 ≤ c.toNat ∧ c.toNat ≤ 102 then some (c.toNat - 87)
  else if 65 ≤ c.toNat ∧ c.toNat ≤ 70 then some (c.toNat - 55)
  else none

/-- Node `Buffer.from(s, 'hex')`: consumes hex digit pairs from the left and
*truncates* (without raising) at the first character that is not a hex digit,
or at a trailing unpaired digit. -/
def jsBufferFromHex : List Char → List Nat
  | c1 :: c2 :: rest =>
    match hexDigitVal c1, hexDigitVal c2 with
    | some h, some l => (16 * h + l) :: jsBufferFromHex rest
    | _, _ => []
  | _ => []

/-- The UTF-16 code units of a string as numbers (JS `charCodeAt`); for the
ASCII strings handled by this system this is also its byte sequence. -/
def strCodes (s : String) : List Nat :=
  s.data.map Char.toNat

/-- ASCII uppercase of one character (JS `toUpperCase` on ASCII data). -/
def asciiUpper (c : Char) : Char :=
  if 97 ≤ c.toNat ∧ c.toNat ≤ 122 then Char.ofNat (c.toNat - 32) else c

/-- ASCII lowercase of one character (JS `toLowerCase` on ASCII data). -/
def asciiLower (c : Char) : Char :=
  if 65 ≤ c.toNat ∧ c.toNat ≤ 90 then Char.ofNat (c.toNat + 32) else c

/-- ASCII uppercase of a string. -/
def strUpper (s : String) : String :=
  String.mk (s.data.map asciiUpper)

/-- JS `s.substring(0, n)`. -/
def strTake (s : String) (n : Nat) : String :=
  String.mk (s.data.take n)

/-! ## SHA-256

Modelled from the spec: the repository delegates all cryptographic hashing
(tagged hashes, and the hash the certificate message *should* use) to
external libraries; this is the standard FIPS 180-4 SHA-256 over a byte
sequence, required by spec sections 4.2 and 4.5. -/

/-- Right rotation of a 32-bit word. -/
def rotr32 (n x : Nat) : Nat :=
  ((x >>> n) ||| (x <<< (32 - n))) &&& 0xffffffff

/-- The SHA-256 round constants. -/
def sha256K : List Nat :=
  [1116352408, 1899447441, 3049323471, 3921009573, 961987163, 1508970993,
   2453635748, 2870763221, 3624381080, 310598401, 607225278, 1426881987,
   1925078388, 2162078206, 2614888103, 3248222580, 3835390401, 4022224774,
   264347078, 604807628, 770255983, 1249150122, 1555081692, 1996064986,
   2554220882, 2821834349, 2952996808, 3210313671, 3336571891, 3584528711,
   113926993, 338241895, 666307205, 773529912, 1294757372, 1396182291,
   1695183700, 1986661051, 2177026350, 2456956037, 2730485921, 2820302411,
   3259730800, 3345764771, 3516065817, 3600352804, 4094571909, 275423344,
   430227734, 506948616, 659060556, 883997877, 958139571, 1322822218,
   1537002063, 1747873779, 1955562222, 2024104815, 2227730452, 2361852424,
   2428436474, 2756734187, 3204031479, 3329325298]

/-- Merkle–Damgård padding: append `0x80`, zeros, and the 64-bit big-endian
bit length, to a multiple of 64 bytes. -/
def sha256Pad (msg : List Nat) : List Nat :=
  let len := msg.length
  let bitLen := 8 * len
  let zeros := (64 - ((len + 9) % 64)) % 64
  msg ++ [0x80] ++ List.replicate zeros 0 ++
    [(bitLen >>> 56) &&& 255, (bitLen >>> 48) &&& 255, (bitLen >>> 40) &&& 255,
     (bitLen >>> 32) &&& 255, (bitLen >>> 24) &&& 255, (bitLen >>> 16) &&& 255,
     (bitLen >>> 8) &&& 255, bitLen &&& 255]

/-- Big-endian 32-bit words from a byte list. -/
def bytesToWords : List Nat → List Nat
  | a :: b :: c :: d :: rest => (a <<< 24 ||| b <<< 16 ||| c <<< 8 ||| d) :: bytesToWords rest
  | _ => []

/-- Message-schedule extension; `ws` holds the schedule so far, most recent
word first. -/
def sha256Extend : Nat → List Nat → List Nat
  | 0, ws => ws
  | fuel + 1, ws =>
    let w2 := ws.getD 1 0
    let w7 := ws.getD 6 0
    let w15 := ws.getD 14 0
    let w16 := ws.getD 15 0
    let s0 := (rotr32 7 w15) ^^^ (rotr32 18 w15) ^^^ (w15 >>> 3)
    let s1 := (rotr32 17 w2) ^^^ (rotr32 19 w2) ^^^ (w2 >>> 10)
    sha256Extend fuel (((w16 + s0 + w7 + s1) &&& 0xffffffff) :: ws)

/-- The eight 32-bit working variables of the compression function. -/
structure Sha256State where
  a : Nat
  b : Nat
  c : Nat
  d : Nat
  e : Nat
  f : Nat
  g : Nat
  h : Nat

/-- One compression round; `kw` is the round constant paired with the
schedule word. -/
def sha256Round (st : Sha256State) (kw : Nat × Nat) : Sha256State :=
  let s1 := (rotr32 6 st.e) ^^^ (rotr32 11 st.e) ^^^ (rotr32 25 st.e)
  let ch := (st.e &&& st.f) ^^^ ((st.e ^^^ 0xffffffff) &&& st.g)
  let t1 := (st.h + s1 + ch + kw.1 + kw.2) &&& 0xffffffff
  let s0 := (rotr32 2 st.a) ^^^ (rotr32 13 st.a) ^^^ (rotr32 22 st.a)
  let mj := (st.a &&& st.b) ^^^ (st.a &&& st.c) ^^^ (st.b &&& st.c)
  let t2 := (s0 + mj) &&& 0xffffffff
  ⟨(t1 + t2) &&& 0xffffffff, st.a, st.b, st.c, (st.d + t1) &&& 0xffffffff, st.e, st.f, st.g⟩

/-- Compress one 64-byte block into the running eight-word state. -/
def sha256Block (hs : List Nat) (block : List Nat) : List Nat :=
  let w16 := bytesToWords block
  let ws := (sha256Extend 48 w16.reverse).reverse
  let init : Sha256State :=
    ⟨hs.getD 0 0, hs.getD 1 0, hs.getD 2 0, hs.getD 3 0,
     hs.getD 4 0, hs.getD 5 0, hs.getD 6 0, hs.getD 7 0⟩
  let fin := (sha256K.zip ws).foldl (fun st kw => sha256Round st kw) init
  [(hs.getD 0 0 + fin.a) &&& 0xffffffff, (hs.getD 1 0 + fin.b) &&& 0xffffffff,
   (hs.getD 2 0 + fin.c) &&& 0xffffffff, (hs.getD 3 0 + fin.d) &&& 0xffffffff,
   (hs.getD 4 0 + fin.e) &&& 0xffffffff, (hs.getD 5 0 + fin.f) &&& 0xffffffff,
   (hs.getD 6 0 + fin.g) &&& 0xffffffff, (hs.getD 7 0 + fin.h) &&& 0xffffffff]

/-- Split a byte list into 64-byte chunks; fuel-driven, called with enough
fuel to exhaust the list. -/
def chunks64 : Nat → List Nat → List (List Nat)
  | 0, _ => []
  | _, [] => []
  | fuel + 1, bs => bs.take 64 :: chunks64 fuel (bs.drop 64)

/-- SHA-256 state words of a byte message. -/
def sha256Words (msg : List Nat) : List Nat :=
  let blocks := chunks64 (msg.length / 64 + 2) (sha256Pad msg)
  blocks.foldl sha256Block
    [1779033703, 3144134277, 1013904242, 2773480762,
     1359893119, 2600822924, 528734635, 1541459225]

/-- SHA-256 digest of a byte message, as 32 bytes. -/
def sha256Bytes (msg : List Nat) : List Nat :=
  (sha256Words msg).flatMap fun w =>
    [(w >>> 24) &&& 255, (w >>> 16) &&& 255, (w >>> 8) &&& 255, w &&& 255]

/-- SHA-256 digest of an ASCII string, as a 64-character lowercase hex
string. -/
def sha256Hex (s : String) : String :=
  bytesToHex (sha256Bytes (strCodes s))

/-! ## The mock oracle's rolling hash (source `MockOracle._sha256`) -/

/-- JavaScript `ToInt32`: wrap an integer into `[-2^31, 2^31)`. -/
def toInt32 (x : Int) : Int :=
  (x + 2 ^ 31) % 2 ^ 32 - 2 ^ 31

/-- One step of the source's rolling hash:
`hash = ((hash << 5) - hash) + char; hash = hash & hash;`. -/
def mockHashStep (h : Int) (c : Nat) : Int :=
  toInt32 (toInt32 (h * 32) - h + c)

namespace MockOracle

/-- The source's `_sha256`: despite its name, a 32-bit rolling fold of the
UTF-16 code units, hex-encoded from the absolute value and left-padded with
zeros to 64 characters.  Not SHA-256. -/
def sha256 (message : String) : String :=
  let h := (strCodes message).foldl mockHashStep 0
  padStartZero 64 (natToHex h.natAbs)

/-- The source's `_generateCertId`: first eight characters of the trust id,
the timestamp in hex, all uppercased into a `CERT-` template. -/
def generateCertId (trustId : String) (timestamp : Nat) : String :=
  let shortId := strTake trustId 8
  let timeHex := natToHex timestamp
  strUpper ("CERT-" ++ shortId ++ "-" ++ timeHex)

end MockOracle

/-! ## bech32m

Modelled from the spec: the repository delegates address coding to the
`bech32` npm package (through `bitcoinjs-lib`); this follows BIP173/BIP350 as
required by spec section 4.4. -/

/-- The bech32 data-character alphabet. -/
def bech32Charset : List Char :=
  "qpzry9x8gf2tvdw0s3jn54khce6mua7l".data

/-- Index of a character in the bech32 alphabet. -/
def charsetVal (c : Char) : Option Nat :=
  bech32Charset.findIdx? (fun d => d = c) |>.map id

/-- The xor of the bech32 generator constants selected by the five low bits
of `b`. -/
def bech32Gen (b : Nat) : Nat :=
  (if b &&& 1 = 1 then 0x3b6a57b2 else 0) ^^^
  (if (b >>> 1) &&& 1 = 1 then 0x26508e6d else 0) ^^^
  (if (b >>> 2) &&& 1 = 1 then 0x1ea119fa else 0) ^^^
  (if (b >>> 3) &&& 1 = 1 then 0x3d4233dd else 0) ^^^
  (if (b >>> 4) &&& 1 = 1 then 0x2a1462b3 else 0)

/-- One step of the bech32 checksum state machine. -/
def polymodStep (pre : Nat) : Nat :=
  ((pre &&& 0x1ffffff) <<< 5) ^^^ bech32Gen (pre >>> 25)

/-- Feed a list of 5-bit values into the checksum state. -/
def polymodAux (chk : Nat) : List Nat → Nat
  | [] => chk
  | v :: vs => polymodAux (polymodStep chk ^^^ v) vs

/-- The checksum state after absorbing the human-readable part: high bits of
each character, a zero separator, then low bits of each character, starting
from state 1.  Returns `none` if a character is outside US-ASCII 33–126. -/
def hrpChk (hrp : List Char) : Option Nat :=
  if hrp.all (fun c => 33 ≤ c.toNat ∧ c.toNat ≤ 126) then
    some (polymodAux (polymodAux 1 (hrp.map (fun c => c.toNat >>> 5)) |> polymodStep)
      (hrp.map (fun c => c.toNat &&& 31)))
  else none

/-- The bech32m checksum constant. -/
def bech32mConst : Nat := 0x2bc830a3

/-- The six checksum words making the final state equal `enc`. -/
def checksumWords (target : Nat) : List Nat :=
  [(target >>> 25) &&& 31, (target >>> 20) &&& 31, (target >>> 15) &&& 31,
   (target >>> 10) &&& 31, (target >>> 5) &&& 31, target &&& 31]

/-- bech32/bech32m encoding of data words under a human-readable part;
`enc` is the encoding constant (1 for bech32, `bech32mConst` for bech32m).
Fails when a word exceeds five bits, the 90-character limit is exceeded, or
the human-readable part is invalid. -/
def bech32EncodeGen (enc : Nat) (hrp : List Char) (words : List Nat) : Option (List Char) :=
  if hrp.length + 7 + words.length > 90 then none
  else if words.all (fun w => w < 32) then
    match hrpChk hrp with
    | none => none
    | some chk0 =>
      let chk1 := polymodAux chk0 words
      let chk2 := polymodAux chk1 [0, 0, 0, 0, 0, 0]
      let target := chk2 ^^^ enc
      some (hrp ++ '1' :: (words ++ checksumWords target).map
        (fun w => bech32Charset.getD w ' '))
  else none

/-- Index of the last occurrence of `c` in `xs`. -/
def lastIdxOf (c : Char) (xs : List Char) : Option Nat :=
  match xs.reverse.findIdx? (fun d => d = c) with
  | none => none
  | some j => some (xs.length - 1 - j)

/-- Map data characters to their 5-bit values; `none` on a character outside
the alphabet. -/
def charsVals : List Char → Option (List Nat)
  | [] => some []
  | c :: cs =>
    match charsetVal c, charsVals cs with
    | some v, some vs => some (v :: vs)
    | _, _ => none

/-- bech32/bech32m decoding: length bounds, mixed-case rejection,
lower-casing, split at the last separator `1`, alphabet mapping and checksum
verification; returns the human-readable part and the data words without the
six checksum words. -/
def bech32DecodeGen (enc : Nat) (str : List Char) : Option (List Char × List Nat) :=
  if str.length < 8 then none
  else if str.length > 90 then none
  else
    let lowered := str.map asciiLower
    let uppered := str.map asciiUpper
    if str ≠ lowered ∧ str ≠ uppered then none
    else
      let s := lowered
      match lastIdxOf '1' s with
      | none => none
      | some split =>
        if split = 0 then none
        else
          let hrp := s.take split
          let dataChars := s.drop (split + 1)
          if dataChars.length < 6 then none
          else
            match hrpChk hrp, charsVals dataChars with
            | some chk0, some vals =>
              if polymodAux chk0 vals = enc then some (hrp, vals.take (vals.length - 6))
              else none
            | _, _ => none

/-! ## Bit-group conversion (the `bech32` package's `toWords`/`fromWords`) -/

/-- Regroup 8-bit bytes into 5-bit words, padding the tail with zero bits;
`value`/`bits` is the pending accumulator (invariant `bits < 5`). -/
def toWordsGo : Nat → Nat → List Nat → List Nat
  | value, bits, [] => if 0 < bits then [value * 2 ^ (5 - bits) % 32] else []
  | value, bits, b :: rest =>
    let v := value * 256 + b
    let t := bits + 8
    if 10 ≤ t then
      (v / 2 ^ (t - 5) % 32) :: (v / 2 ^ (t - 10) % 32) :: toWordsGo v (t - 10) rest
    else
      (v / 2 ^ (t - 5) % 32) :: toWordsGo v (t - 5) rest

/-- The `bech32` package's `toWords`. -/
def toWords (bytes : List Nat) : List Nat :=
  toWordsGo 0 0 bytes

/-- Regroup 5-bit words into 8-bit bytes, rejecting excess or non-zero
padding; `value`/`bits` is the pending accumulator (invariant `bits < 8`). -/
def fromWordsGo : Nat → Nat → List Nat → Option (List Nat)
  | value, bits, [] =>
    if 5 ≤ bits then none
    else if value * 2 ^ (8 - bits) % 256 ≠ 0 then none
    else some []
  | value, bits, w :: rest =>
    let v := value * 32 + w
    let t := bits + 5
    if 8 ≤ t then
      (fromWordsGo v (t - 8) rest).map (fun bs => (v / 2 ^ (t - 8) % 256) :: bs)
    else
      fromWordsGo v t rest

/-- The `bech32` package's `fromWords` (strict mode). -/
def fromWords (words : List Nat) : Option (List Nat) :=
  fromWordsGo 0 0 words

/-! ## Segwit addresses (`bitcoinjs-lib` `address.ts`) -/

/-- `bitcoinjs-lib` `toBech32`: witness `version` word followed by the
regrouped program, bech32 for version 0 and bech32m otherwise. -/
def toBech32 (data : List Nat) (version : Nat) (hrp : String) : Option String :=
  let words := version :: toWords data
  let enc := if version = 0 then 1 else bech32mConst
  (bech32EncodeGen enc hrp.data words).map String.mk

/-- Decoded segwit address: witness version, human-readable part, program. -/
structure Bech32Decoded where
  version : Nat
  hrPart : List Char
  program : List Nat

/-- `bitcoinjs-lib` `fromBech32`: try bech32 (requiring version 0), then
bech32m (requiring version ≠ 0), then regroup the data words. -/
def fromBech32 (address : List Char) : Option Bech32Decoded :=
  match bech32DecodeGen 1 address with
  | some (hrp, words) =>
    match words with
    | v :: rest => if v = 0 then (fromWords rest).map (fun d => ⟨v, hrp, d⟩) else none
    | [] => none
  | none =>
    match bech32DecodeGen bech32mConst address with
    | some (hrp, words) =>
      match words with
      | v :: rest => if v ≠ 0 then (fromWords rest).map (fun d => ⟨v, hrp, d⟩) else none
      | [] => none
    | none => none

/-! ## secp256k1 arithmetic

Modelled from the spec: the repository delegates elliptic-curve arithmetic
to `tiny-secp256k1`; spec sections 4.3 and 4.4 fix the curve as secp256k1
with x-only (even-`Y`) key lifting. -/

/-- The secp256k1 base field prime. -/
def secpP : Nat := 0xfffffffffffffffffffffffffffffffffffffffffffffffffffffffefffffc2f

/-- The secp256k1 group order. -/
def secpN : Nat := 0xfffffffffffffffffffffffffffffffebaaedce6af48a03bbfd25e8cd0364141

/-- x-coordinate of the secp256k1 base point. -/
def secpGx : Nat := 0x79be667ef9dcbbac55a06295ce870b07029bfcdb2dce28d959f2815b16f81798

/-- y-coordinate of the secp256k1 base point. -/
def secpGy : Nat := 0x483ada7726a3c4655da4fbfc0e1108a8fd17b448a68554199c47d08ffb10d4b8

/-- Square-and-multiply modular exponentiation; the first argument is fuel,
always at least the bit length of the exponent. -/
def powModF : Nat → Nat → Nat → Nat → Nat
  | 0, _, _, _ => 1
  | _ + 1, _, 0, m => 1 % m
  | fuel + 1, b, e, m =>
    let h := powModF fuel ((b * b) % m) (e / 2) m
    if e % 2 = 1 then (h * b) % m else h

/-- `b ^ e` modulo the secp256k1 field prime. -/
def pPow (b e : Nat) : Nat := powModF 257 b e secpP

/-- A secp256k1 point in Jacobian coordinates `(X, Y, Z)`; affine
`x = X/Z²`, `y = Y/Z³`; `Z = 0` encodes the point at infinity. -/
def JPoint := Nat × Nat × Nat

/-- The point at infinity. -/
def jZero : JPoint := (1, 1, 0)

/-- Jacobian point doubling on `y² = x³ + 7` (curve coefficient `a = 0`). -/
def jDbl : JPoint → JPoint
  | (x, y, z) =>
    if y = 0 then jZero
    else
      let s := (4 * x % secpP) * (y * y % secpP) % secpP
      let m := 3 * (x * x % secpP) % secpP
      let xr := (m * m + 2 * secpP * secpP - 2 * s) % secpP
      let y4 := (y * y % secpP) * (y * y % secpP) % secpP
      let yr := (m * ((s + secpP - xr) % secpP) % secpP + secpP * secpP - 8 * y4) % secpP
      let zr := 2 * y * z % secpP
      (xr, yr, zr)

/-- Jacobian point addition. -/
def jAdd : JPoint → JPoint → JPoint
  | (x1, y1, z1), (x2, y2, z2) =>
    if z1 = 0 then (x2, y2, z2)
    else if z2 = 0 then (x1, y1, z1)
    else
      let z1s := z1 * z1 % secpP
      let z2s := z2 * z2 % secpP
      let u1 := x1 * z2s % secpP
      let u2 := x2 * z1s % secpP
      let s1 := y1 * (z2s * z2 % secpP) % secpP
      let s2 := y2 * (z1s * z1 % secpP) % secpP
      if u1 = u2 then
        if s1 = s2 then jDbl (x1, y1, z1) else jZero
      else
        let h := (u2 + secpP - u1) % secpP
        let r := (s2 + secpP - s1) % secpP
        let h2 := h * h % secpP
        let h3 := h2 * h % secpP
        let xr := (r * r % secpP + 3 * secpP - h3 - 2 * (u1 * h2 % secpP)) % secpP
        let yr := (r * ((u1 * h2 % secpP + secpP - xr) % secpP) % secpP
                   + secpP - s1 * h3 % secpP) % secpP
        let zr := h * (z1 * z2 % secpP) % secpP
        (xr, yr, zr)

/-- Double-and-add scalar multiplication; fuel-driven binary recursion. -/
def jMulF : Nat → Nat → JPoint → JPoint
  | 0, _, _ => jZero
  | _ + 1, 0, _ => jZero
  | fuel + 1, k, q =>
    let h := jMulF fuel (k / 2) (jDbl q)
    if k % 2 = 1 then jAdd q h else h

/-- Scalar multiple `k · Q`. -/
def jMul (k : Nat) (q : JPoint) : JPoint := jMulF 257 k q

/-- Convert a Jacobian point to affine coordinates (`none` at infinity). -/
def jToAffine : JPoint → Option (Nat × Nat)
  | (x, y, z) =>
    if z = 0 then none
    else
      let zi := pPow z (secpP - 2)
      let zi2 := zi * zi % secpP
      some (x * zi2 % secpP, y * (zi2 * zi % secpP) % secpP)

/-- The secp256k1 base point in Jacobian coordinates. -/
def jG : JPoint := (secpGx, secpGy, 1)

/-- Big-endian value of a byte list. -/
def beNat (bs : List Nat) : Nat :=
  bs.foldl (fun acc b => acc * 256 + b) 0

/-- Big-endian bytes of a value, `len` bytes long. -/
def natToBytesBE (len n : Nat) : List Nat :=
  (List.range len).map (fun i => n / 2 ^ (8 * (len - 1 - i)) % 256)

/-- `tiny-secp256k1` `isXOnlyPoint`: 32 bytes whose big-endian value `x` is
below the field prime such that `x³ + 7` has a square root (computed as
`c ^ ((p+1)/4)` and squared back for the check, `p ≡ 3 mod 4`). -/
def isXOnlyPoint (bs : List Nat) : Bool :=
  bs.length = 32 &&
    (let x := beNat bs
     let c := (x * x % secpP) * x % secpP + 7
     let r := pPow (c % secpP) ((secpP + 1) / 4)
     decide (x < secpP) && decide (r * r % secpP = c % secpP))

/-! ## Tagged hashes, tap leaves, Merkle root (BIP341)

Modelled from the spec: tagged hashing and the two-leaf Merkle root are
delegated to `bitcoinjs-lib`; spec section 4.2 fixes the construction. -/

/-- BIP341 tagged hash: `SHA256(SHA256(tag) ‖ SHA256(tag) ‖ data)`. -/
def taggedHash (tag : String) (data : List Nat) : List Nat :=
  let th := sha256Bytes (strCodes tag)
  sha256Bytes (th ++ th ++ data)

/-- Bitcoin CompactSize length prefix. -/
def compactSize (n : Nat) : List Nat :=
  if n < 253 then [n]
  else if n < 65536 then [253, n % 256, n / 256 % 256]
  else [254, n % 256, n / 256 % 256, n / 65536 % 256, n / 16777216 % 256]

/-- A tap leaf: a script and a leaf version (0xC0 here). -/
structure TapLeaf where
  script : List Nat
  version : Nat

/-- BIP341 leaf hash: tagged hash of version byte, CompactSize-prefixed
script. -/
def leafHash (leaf : TapLeaf) : List Nat :=
  taggedHash "TapLeaf" ([leaf.version] ++ compactSize leaf.script.length ++ leaf.script)

/-- Lexicographic (byte-wise big-endian) comparison of byte lists. -/
def bytesLe : List Nat → List Nat → Bool
  | [], _ => true
  | _ :: _, [] => false
  | a :: as_, b :: bs =>
    if a < b then true
    else if b < a then false
    else bytesLe as_ bs

/-- BIP341 branch hash of two leaf hashes, smaller hash first. -/
def tapBranch (h1 h2 : List Nat) : List Nat :=
  taggedHash "TapBranch" (if bytesLe h1 h2 then h1 ++ h2 else h2 ++ h1)

/-- Merkle root of a tap-leaf list per spec section 4.2: a single leaf is
its own root, two leaves are combined in lexicographic hash order, the
empty tree is invalid. -/
def merkleRoot : List TapLeaf → Option (List Nat)
  | [] => none
  | [l] => some (leafHash l)
  | [a, b] => some (tapBranch (leafHash a) (leafHash b))
  | _ => none

/-! ## Script assembly (`bitcoinjs-lib` `script.compile`) -/

/-- Little-endian bytes of a positive value, stopping at zero. -/
def natLEBytes : Nat → Nat → List Nat
  | 0, _ => []
  | _ + 1, 0 => []
  | fuel + 1, n => (n % 256) :: natLEBytes fuel (n / 256)

/-- `bitcoinjs-lib` `script.number.encode` for a non-negative value (the
system only pushes locktimes): minimal little-endian with a zero
sign-extension byte when the top bit of the last byte is set. -/
def scriptNumEncode (n : Nat) : List Nat :=
  let le := natLEBytes 16 n
  match le.getLast? with
  | none => []
  | some last => if 128 ≤ last then le ++ [0] else le

/-- A script chunk: either data to push or a raw opcode. -/
inductive ScriptChunk where
  | data : List Nat → ScriptChunk
  | op : Nat → ScriptChunk

/-- `bitcoinjs-lib` minimal push encoding of a data chunk, including the
`asMinimalOP` rewrite of `[]`, `[1]`–`[16]` and `[0x81]` to single
opcodes. -/
def minimalPush (bs : List Nat) : List Nat :=
  match bs with
  | [] => [0]
  | [b] =>
    if 1 ≤ b ∧ b ≤ 16 then [80 + b]
    else if b = 129 then [79]
    else [1, b]
  | _ =>
    if bs.length < 76 then bs.length :: bs
    else if bs.length < 256 then 76 :: bs.length :: bs
    else 77 :: (bs.length % 256) :: (bs.length / 256 % 256) :: bs

/-- `bitcoinjs-lib` `script.compile` over chunks. -/
def scriptCompile (chunks : List ScriptChunk) : List Nat :=
  chunks.flatMap fun c =>
    match c with
    | .data bs => minimalPush bs
    | .op n => [n]

/-- Opcode `OP_CHECKLOCKTIMEVERIFY`. -/
def OP_CHECKLOCKTIMEVERIFY : Nat := 0xb1

/-- Opcode `OP_DROP`. -/
def OP_DROP : Nat := 0x75

/-- Opcode `OP_CHECKSIG`. -/
def OP_CHECKSIG : Nat := 0xac

/-- Opcode `OP_CHECKSIGVERIFY`. -/
def OP_CHECKSIGVERIFY : Nat := 0xad

/-- Opcode `OP_1`. -/
def OP_1 : Nat := 0x51

/-! ## Taproot commitment and trust construction (source `bitcoin.js`) -/

/-- Failures during trust construction (spec section 7 taxonomy restricted
to what this construction can raise). -/
inductive TrustError where
  | invalidPublicKeyLength : Nat → TrustError
  | encodingError : TrustError
  | invalidTweak : TrustError
  | invalidInternalKey : TrustError
  | pointAtInfinity : TrustError
deriving Repr, DecidableEq

/-- The source's `toXOnlyPublicKey`: drop the format byte of a 33-byte
compressed or 65-byte uncompressed key, keep a 32-byte key as is, reject
other lengths. -/
def toXOnlyPublicKey (pub : List Nat) : Except TrustError (List Nat) :=
  if pub.length = 33 then .ok ((pub.drop 1).take 32)
  else if pub.length = 65 then .ok ((pub.drop 1).take 32)
  else if pub.length = 32 then .ok pub
  else .error (.invalidPublicKeyLength pub.length)

/-- `tiny-secp256k1` `xOnlyPointAddTweak` (spec section 4.3 `commit`): lift
the x-only internal key to the even-`Y` point `P`, reject a tweak at or
above the group order, compute `Q = P + t·G`, reject the point at infinity,
and return `Q`'s parity bit and x-coordinate bytes. -/
def xOnlyPointAddTweak (key : List Nat) (t : Nat) : Except TrustError (Nat × List Nat) :=
  if ¬ isXOnlyPoint key then .error .invalidInternalKey
  else if secpN ≤ t then .error .invalidTweak
  else
    let x := beNat key
    let c := ((x * x % secpP) * x + 7) % secpP
    let y0 := pPow c ((secpP + 1) / 4)
    let y := if y0 % 2 = 0 then y0 else secpP - y0
    match jToAffine (jAdd (x, y, 1) (jMul t jG)) with
    | none => .error .pointAtInfinity
    | some (qx, qy) => .ok (qy % 2, natToBytesBE 32 qx)

/-- The BIP341 output-key computation used by `bitcoinjs-lib` `p2tr`:
tweak the internal key with `tagged_hash("TapTweak", internalKey ‖ root)`
(just the key when there is no script tree). -/
def p2trOutputKey (internal : List Nat) (root : Option (List Nat)) :
    Except TrustError (Nat × List Nat) :=
  let t := beNat (taggedHash "TapTweak" (internal ++ root.getD []))
  xOnlyPointAddTweak internal t

/-- The two leaf scripts assembled by the source's `createTaprootTrust`:
the timelock path and the oracle path. -/
def trustScripts (locktime : Nat) (heirXOnly oracleXOnly : List Nat) :
    List Nat × List Nat :=
  (scriptCompile [.data (scriptNumEncode locktime), .op OP_CHECKLOCKTIMEVERIFY,
     .op OP_DROP, .data heirXOnly, .op OP_CHECKSIG],
   scriptCompile [.data oracleXOnly, .op OP_CHECKSIGVERIFY,
     .data heirXOnly, .op OP_CHECKSIG])

/-- The trust record returned by the source's `createTaprootTrust` (the
purely presentational `locktimeDate` and `witness` fields are omitted). -/
structure TaprootTrust where
  address : String
  internalPubkey : String
  heirPubkey : String
  oraclePubkey : String
  locktime : Nat
  scriptTimelock : String
  scriptOracle : String
  output : String
deriving Repr, DecidableEq

/-- The source's `createTaprootTrust`.  `Date.now()` is made explicit as
the `currentTime` argument (Unix seconds); everything else follows the
source: x-only normalisation of the three keys, `locktime = currentTime +
timelockHours·3600`, the two leaf scripts, the two-leaf tree with leaf
version 192, the Taproot commitment and the bech32m testnet address. -/
def createTaprootTrust (ownerPublicKey heirPublicKey oraclePublicKey : List Nat)
    (timelockHours : Nat) (currentTime : Nat) : Except TrustError TaprootTrust := do
  let ownerXOnly ← toXOnlyPublicKey ownerPublicKey
  let heirXOnly ← toXOnlyPublicKey heirPublicKey
  let oracleXOnly ← toXOnlyPublicKey oraclePublicKey
  let locktime := currentTime + timelockHours * 3600
  let scripts := trustScripts locktime heirXOnly oracleXOnly
  let leaves := [TapLeaf.mk scripts.1 192, TapLeaf.mk scripts.2 192]
  match merkleRoot leaves with
  | none => .error .encodingError
  | some root => do
    let q ← p2trOutputKey ownerXOnly (some root)
    match toBech32 q.2 1 "tb" with
    | none => .error .encodingError
    | some addr =>
      .ok { address := addr
            internalPubkey := bytesToHex ownerXOnly
            heirPubkey := bytesToHex heirXOnly
            oraclePubkey := bytesToHex oracleXOnly
            locktime := locktime
            scriptTimelock := bytesToHex scripts.1
            scriptOracle := bytesToHex scripts.2
            output := bytesToHex ([OP_1, 32] ++ q.2) }

/-- The record returned by the source's `createSimpleTaprootAddress`. -/
structure SimpleTaprootAddress where
  address : String
  publicKey : String
  output : String
deriving Repr, DecidableEq

/-- The source's `createSimpleTaprootAddress`: x-only normalisation and a
key-path-only Taproot output. -/
def createSimpleTaprootAddress (ownerPublicKey : List Nat) :
    Except TrustError SimpleTaprootAddress := do
  let xOnly ← toXOnlyPublicKey ownerPublicKey
  let q ← p2trOutputKey xOnly none
  match toBech32 q.2 1 "tb" with
  | none => .error .encodingError
  | some addr =>
    .ok { address := addr
          publicKey := bytesToHex xOnly
          output := bytesToHex ([OP_1, 32] ++ q.2) }

/-- `bitcoinjs-lib` `address.toOutputScript` for the testnet network,
restricted to the bech32 family (base58check addresses never pass the
caller's `tb1p` guard): decode, require the `tb` human-readable part, then
dispatch on witness version — version 0 pays to a 20- or 32-byte hash,
version 1 requires a 32-byte program that is a valid x-only point
(`p2tr` validation), versions 2–16 with 2–40 byte programs are accepted as
future segwit outputs. -/
def toOutputScript (address : List Char) : Option (List Nat) :=
  match fromBech32 address with
  | none => none
  | some d =>
    if d.hrPart ≠ ['t', 'b'] then none
    else if d.version = 0 then
      if d.program.length = 20 then some (0 :: 20 :: d.program)
      else if d.program.length = 32 then some (0 :: 32 :: d.program)
      else none
    else if d.version = 1 then
      if d.program.length = 32 ∧ isXOnlyPoint d.program then
        some ([OP_1, 32] ++ d.program)
      else none
    else if 2 ≤ d.version ∧ d.version ≤ 16 ∧ 2 ≤ d.program.length ∧ d.program.length ≤ 40 then
      some ([80 + d.version, d.program.length] ++ d.program)
    else none

/-- The source's `isValidTaprootAddress`: a case-sensitive `tb1p` check
followed by an attempted decode, any failure giving `false`. -/
def isValidTaprootAddress (address : String) : Bool :=
  if address.data.take 4 ≠ ['t', 'b', '1', 'p'] then false
  else
    match toOutputScript address.data with
    | some _ => true
    | none => false

/-! ## Generic elliptic-curve points for the oracle signature scheme

Modelled from the spec: the oracle signs with `tiny-secp256k1` (ECDSA over
secp256k1); spec section 9 notes the exact scheme was not verified from the
available code, so the scheme is embedded generically over a short
Weierstrass curve `y² = x³ + b` given by an `OracleCurve` context, with the
standard ECDSA sign/verify equations.  Points are pairs over `ZMod p` so
that the group structure can be transferred from Mathlib's
`WeierstrassCurve.Affine.Point`. -/

/-- An executable affine point: `none` is the point at infinity. -/
abbrev EPoint (p : ℕ) : Type := Option (ZMod p × ZMod p)

/-- Field inversion by Fermat's little theorem, `x ^ (p - 2)`; used instead
of `Inv.inv` so that the kernel can evaluate points on concrete curves. -/
def eInv (p : ℕ) (x : ZMod p) : ZMod p := x ^ (p - 2)

/-- Executable point addition on `y² = x³ + b` over `ZMod p` (chord and
tangent formulas, mirroring `WeierstrassCurve.Affine.Point.add` for
`a₁ = a₂ = a₃ = a₄ = 0`). -/
def eAdd (p : ℕ) [Fact (Nat.Prime p)] : EPoint p → EPoint p → EPoint p
  | none, q => q
  | q, none => q
  | some (x1, y1), some (x2, y2) =>
    if x1 = x2 ∧ y1 = -y2 then none
    else
      let L := if x1 = x2 then 3 * x1 ^ 2 * eInv p (2 * y1)
               else (y1 - y2) * eInv p (x1 - x2)
      let x3 := L ^ 2 - x1 - x2
      some (x3, L * (x1 - x3) - y1)

/-- Executable scalar multiple, as an iterated `eAdd`. -/
def eMul (p : ℕ) [Fact (Nat.Prime p)] (k : ℕ) (q : EPoint p) : EPoint p :=
  match k with
  | 0 => none
  | k + 1 => eAdd p q (eMul p k q)

/-- The curve context for the oracle's signature scheme: field prime `p`,
curve coefficient `b`, group order `n`, and base-point coordinates. -/
structure OracleCurve where
  p : ℕ
  b : ℕ
  n : ℕ
  gx : ℕ
  gy : ℕ

/-- The context's base point. -/
def ecG (C : OracleCurve) : EPoint C.p :=
  some ((C.gx : ZMod C.p), (C.gy : ZMod C.p))

/-- SEC1 compressed encoding of an affine point: parity byte `02`/`03`
followed by the 32-byte big-endian x-coordinate. -/
def compressPoint (C : OracleCurve) (pt : ZMod C.p × ZMod C.p) : List Nat :=
  (if pt.2.val % 2 = 0 then 2 else 3) :: natToBytesBE 32 pt.1.val

/-- SEC1 decompression, as `tiny-secp256k1` performs when parsing a
33-byte public key: square root by raising to `(p+1)/4` (`p ≡ 3 mod 4`),
with the root squared back as the on-curve check. -/
def decompressPoint (C : OracleCurve) [Fact (Nat.Prime C.p)] (bs : List Nat) :
    Option (ZMod C.p × ZMod C.p) :=
  match bs with
  | [] => none
  | h :: rest =>
    if rest.length = 32 ∧ (h = 2 ∨ h = 3) then
      let xv := beNat rest
      if xv < C.p then
        let x : ZMod C.p := (xv : ZMod C.p)
        let c := x ^ 3 + (C.b : ZMod C.p)
        let y0 := c ^ ((C.p + 1) / 4)
        if y0 ^ 2 = c then
          some (x, if (y0.val % 2 = 0 ↔ h = 2) then y0 else -y0)
        else none
      else none
    else none

/-- ECDSA signing (`tiny-secp256k1` `sign`) over the context curve, with a
simple deterministic nonce in `[1, n-1]` (the spec leaves the nonce scheme
open) and low-`S` normalisation; `none` when `r` or `s` degenerates. -/
def ecdsaSign (C : OracleCurve) [Fact (Nat.Prime C.p)] [Fact (Nat.Prime C.n)]
    (d : ℕ) (z : ℕ) : Option (ℕ × ℕ) :=
  let k := 1 + (z + d) % (C.n - 1)
  match eMul C.p k (ecG C) with
  | none => none
  | some pt =>
    let r : ZMod C.n := ((pt.1.val : ℕ) : ZMod C.n)
    if r = 0 then none
    else
      let s : ZMod C.n := eInv C.n (k : ZMod C.n) * ((z : ZMod C.n) + r * (d : ZMod C.n))
      if s = 0 then none
      else some (r.val, if C.n / 2 < s.val then (-s).val else s.val)

/-- ECDSA verification (`tiny-secp256k1` `verify`, non-strict): raises
(`.error`) on a malformed signature, hash or public key as the library
does, returns `false` on a zero scalar or failed equation. -/
def ecdsaVerify (C : OracleCurve) [Fact (Nat.Prime C.p)] [Fact (Nat.Prime C.n)]
    (pubBytes hashBytes sigBytes : List Nat) : Except String Bool :=
  if sigBytes.length ≠ 64 then .error "Expected Signature"
  else if hashBytes.length ≠ 32 then .error "Expected Hash"
  else
    match decompressPoint C pubBytes with
    | none => .error "Expected Point"
    | some pub =>
      let rv := beNat (sigBytes.take 32)
      let sv := beNat (sigBytes.drop 32)
      if C.n ≤ rv ∨ C.n ≤ sv then .error "Expected Signature"
      else if rv = 0 ∨ sv = 0 then .ok false
      else
        let z : ZMod C.n := ((beNat hashBytes : ℕ) : ZMod C.n)
        let w := eInv C.n ((sv : ℕ) : ZMod C.n)
        let u1 := z * w
        let u2 := ((rv : ℕ) : ZMod C.n) * w
        match eAdd C.p (eMul C.p u1.val (ecG C)) (eMul C.p u2.val (some pub)) with
        | none => .ok false
        | some pt => .ok (decide (((pt.1.val : ℕ) : ZMod C.n) = ((rv : ℕ) : ZMod C.n)))

/-! ## The mock oracle service (source `mockOracle.js`) -/

/-- The oracle's key state, as the `MockOracle` constructor stores it: the
public key as a hex string and the signing key (the WIF round-trip of the
source preserves the key, so it is kept as a scalar). -/
structure OracleKeyPair where
  publicKey : String
  privateKey : Nat

/-- A death certificate as issued by the source's
`issueDeathCertificate` (the purely presentational `issuedAt` field is
omitted). -/
structure Certificate where
  trustId : String
  personName : String
  timestamp : Nat
  message : String
  messageHash : String
  signature : String
  oraclePublicKey : String
  certificateId : String
deriving Repr, DecidableEq

namespace MockOracle

/-- The source's `issueDeathCertificate`: builds the colon-delimited
message with the current Unix time (explicit here as `timestamp`), hashes
it with the rolling `_sha256`, signs the 32 hash bytes with the oracle key
over the context curve, and assembles the certificate.  `none` when the
signature degenerates (where the library would raise). -/
def issueDeathCertificate (C : OracleCurve) [Fact (Nat.Prime C.p)] [Fact (Nat.Prime C.n)]
    (kp : OracleKeyPair) (trustId personName : String) (timestamp : Nat) :
    Option Certificate :=
  let message := "DEATH_CERT:" ++ trustId ++ ":" ++ personName ++ ":" ++ natToDec timestamp
  let messageHash := jsBufferFromHex (MockOracle.sha256 message).data
  match ecdsaSign C kp.privateKey (beNat messageHash) with
  | none => none
  | some rs =>
    some { trustId := trustId
           personName := personName
           timestamp := timestamp
           message := message
           messageHash := bytesToHex messageHash
           signature := bytesToHex (natToBytesBE 32 rs.1 ++ natToBytesBE 32 rs.2)
           oraclePublicKey := kp.publicKey
           certificateId := MockOracle.generateCertId trustId timestamp }

/-- The body of the source's `verifyCertificate` before its `try`/`catch`:
hex-decode the three relevant fields and run `ecc.verify`. -/
def verifyInner (C : OracleCurve) [Fact (Nat.Prime C.p)] [Fact (Nat.Prime C.n)]
    (cert : Certificate) : Except String Bool :=
  ecdsaVerify C (jsBufferFromHex cert.oraclePublicKey.data)
    (jsBufferFromHex cert.messageHash.data) (jsBufferFromHex cert.signature.data)

/-- The source's `verifyCertificate`: any raised error becomes `false`. -/
def verifyCertificate (C : OracleCurve) [Fact (Nat.Prime C.p)] [Fact (Nat.Prime C.n)]
    (cert : Certificate) : Bool :=
  match verifyInner C cert with
  | .ok bv => bv
  | .error _ => false

end MockOracle

/-- A small test curve satisfying every hypothesis of the generic theorems:
`y² = x³ + 7` over `ZMod 67`, with base point `(2, 22)` of prime order
79. -/
def toyCurve : OracleCurve :=
  { p := 67, b := 7, n := 79, gx := 2, gy := 22 }

instance : Fact (Nat.Prime 67) := ⟨by norm_num⟩

instance : Fact (Nat.Prime 79) := ⟨by norm_num⟩

instance : Fact (Nat.Prime toyCurve.p) := ⟨by norm_num [toyCurve]⟩

instance : Fact (Nat.Prime toyCurve.n) := ⟨by norm_num [toyCurve]⟩

/-! ## Concrete test inputs and claim-side formulas -/

/-- The certificate-id formula claimed by the spec: `"CERT-"` followed by
the uppercase hex of the first four *bytes* of the trust id, a dash, and
the uppercase hex of the timestamp. -/
def specCertId (trustId : String) (timestamp : Nat) : String :=
  "CERT-" ++ strUpper (bytesToHex ((strCodes trustId).take 4)) ++ "-"
    ++ strUpper (natToHex timestamp)

/-- A concrete valid public key: the base point's x-coordinate (32-byte
x-only form). -/
def demoOwnerKey : List Nat := natToBytesBE 32 secpGx

/-- A concrete valid public key: the x-coordinate of `2·G`. -/
def demoHeirKey : List Nat :=
  natToBytesBE 32 ((jToAffine (jMul 2 jG)).getD (0, 0)).1

/-- A concrete valid public key: the x-coordinate of `3·G`. -/
def demoOracleKey : List Nat :=
  natToBytesBE 32 ((jToAffine (jMul 3 jG)).getD (0, 0)).1

/-- A concrete oracle key pair on the test curve: private key 5, public key
the compressed encoding of `5·G`. -/
def toyKeyPair : OracleKeyPair :=
  { publicKey := "02000000000000000000000000000000000000000000000000000000000000002e"
    privateKey := 5 }

/-! ### Helper lemmas -/

theorem toInt32_bounds (x : Int) : -(2 ^ 31) ≤ toInt32 x ∧ toInt32 x < 2 ^ 31 := by
  unfold toInt32
  have h1 : 0 ≤ (x + 2 ^ 31) % 2 ^ 32 := Int.emod_nonneg _ (by norm_num)
  have h2 : (x + 2 ^ 31) % 2 ^ 32 < 2 ^ 32 := Int.emod_lt_of_pos _ (by norm_num)
  omega

theorem mockFold_bounds (l : List Nat) (h : Int)
    (hb : -(2 ^ 31) ≤ h ∧ h < 2 ^ 31) :
    -(2 ^ 31) ≤ l.foldl mockHashStep h ∧ l.foldl mockHashStep h < 2 ^ 31 := by
  induction l generalizing h with
  | nil => exact hb
  | cons c cs ih => exact ih _ (toInt32_bounds _)

theorem natToHexAux_length : ∀ (fuel n k : Nat), n < 16 ^ k →
    (natToHexAux fuel n).length ≤ k := by
  intro fuel
  induction fuel with
  | zero => intro n k _; simp [natToHexAux]
  | succ fuel ih =>
    intro n k hn
    match n with
    | 0 => simp [natToHexAux]
    | m + 1 =>
      match k with
      | 0 => omega
      | k + 1 =>
        have hd : (m + 1) / 16 < 16 ^ k := by
          have : (m + 1) / 16 < 16 ^ (k + 1) / 16 + 1 := by
            have := Nat.div_le_div_right (c := 16) (Nat.le_of_lt_succ (Nat.lt_succ_of_lt hn))
            omega
          have h16 : 16 ^ (k + 1) / 16 = 16 ^ k := by
            rw [pow_succ, Nat.mul_div_cancel]
            omega
          omega
        have := ih ((m + 1) / 16) k hd
        simp only [natToHexAux, List.length_append, List.length_cons, List.length_nil]
        omega

theorem natToHex_length (n : Nat) (h : n < 16 ^ 8) : (natToHex n).length ≤ 8 := by
  unfold natToHex
  by_cases h0 : n = 0
  · simp [h0]; decide
  · simp only [h0, if_false]
    show (natToHexAux n n).length ≤ 8
    exact natToHexAux_length n n 8 h

/-- C10 helper: the mock hash is 64 characters with at least 56 leading
zeros. -/
theorem mockSha256_shape (message : String) :
    (MockOracle.sha256 message).length = 64 ∧
    (MockOracle.sha256 message).data.take 56 = List.replicate 56 '0' := by
  unfold MockOracle.sha256 padStartZero
  have hb := mockFold_bounds (strCodes message) 0 (by norm_num)
  set h := (strCodes message).foldl mockHashStep 0 with hh
  have habs : h.natAbs < 16 ^ 8 := by
    have : (16 : Nat) ^ 8 = 4294967296 := by norm_num
    omega
  have hlen : (natToHex h.natAbs).data.length ≤ 8 := natToHex_length _ habs
  have hLL : (natToHex h.natAbs).length = (natToHex h.natAbs).data.length := rfl
  constructor
  · show (String.mk _ ++ _).length = 64
    rw [String.length_append]
    simp only [String.length]
    rw [List.length_replicate]
    omega
  · show (String.mk _ ++ _).data.take 56 = _
    rw [String.data_append]
    simp only [String.data]
    rw [List.take_append_of_le_length (by rw [List.length_replicate]; omega),
      List.take_replicate]
    congr 1
    omega

theorem bytesLe_total : ∀ x y : List Nat, bytesLe x y = true ∨ bytesLe y x = true := by
  intro x
  induction x with
  | nil => intro y; left; rfl
  | cons a as ih =>
    intro y
    cases y with
    | nil => right; rfl
    | cons b bs =>
      by_cases hab : a < b
      · left; simp [bytesLe, hab]
      · by_cases hba : b < a
        · right; simp [bytesLe, hba]
        · have : ¬ b < a := hba
          rcases ih bs with h | h
          · left; simpa [bytesLe, hab, hba] using h
          · right; simpa [bytesLe, hab, hba] using h

theorem bytesLe_antisymm : ∀ x y : List Nat,
    bytesLe x y = true → bytesLe y x = true → x = y := by
  intro x
  induction x with
  | nil =>
    intro y _ hyx
    cases y with
    | nil => rfl
    | cons b bs => simp [bytesLe] at hyx
  | cons a as ih =>
    intro y hxy hyx
    cases y with
    | nil => simp [bytesLe] at hxy
    | cons b bs =>
      by_cases hab : a < b
      · simp [bytesLe, hab, Nat.lt_asymm hab, Nat.ne_of_lt hab] at hyx
      · by_cases hba : b < a
        · simp [bytesLe, hab, hba] at hxy
        · have hEq : a = b := by omega
          subst hEq
          simp only [bytesLe, hab, hba, if_false] at hxy hyx
          rw [ih bs hxy hyx]

theorem tapBranch_comm (h1 h2 : List Nat) : tapBranch h1 h2 = tapBranch h2 h1 := by
  unfold tapBranch
  cases hle12 : bytesLe h1 h2 <;> cases hle21 : bytesLe h2 h1
  · rcases bytesLe_total h1 h2 with h | h
    · rw [h] at hle12; cases hle12
    · rw [h] at hle21; cases hle21
  · simp
  · simp
  · rw [bytesLe_antisymm h1 h2 hle12 hle21]

/-- C3: the two-leaf Merkle root does not depend on leaf order. -/
theorem claim_C3 (leafA leafB : TapLeaf) :
    merkleRoot [leafA, leafB] = merkleRoot [leafB, leafA] := by
  show some (tapBranch (leafHash leafA) (leafHash leafB))
    = some (tapBranch (leafHash leafB) (leafHash leafA))
  rw [tapBranch_comm]

theorem generateCertId_eq (t : String) (ts : Nat) :
    MockOracle.generateCertId t ts
      = "CERT-" ++ strUpper (strTake t 8) ++ "-" ++ strUpper (natToHex ts) := by
  apply String.ext
  have h1 : "CERT-".data.map asciiUpper = "CERT-".data := by decide
  have h2 : "-".data.map asciiUpper = "-".data := by decide
  simp only [MockOracle.generateCertId, strUpper, strTake, String.data_append,
    List.map_append, h1, h2]

theorem issue_certificateId (C : OracleCurve) [Fact (Nat.Prime C.p)] [Fact (Nat.Prime C.n)]
    (kp : OracleKeyPair) (trustId personName : String) (timestamp : Nat) (cert : Certificate)
    (h : MockOracle.issueDeathCertificate C kp trustId personName timestamp = some cert) :
    cert.certificateId = MockOracle.generateCertId trustId timestamp := by
  simp only [MockOracle.issueDeathCertificate] at h
  split at h
  · exact absurd h (by simp)
  · simp only [Option.some.injEq] at h
    subst h
    rfl

theorem issue_message (C : OracleCurve) [Fact (Nat.Prime C.p)] [Fact (Nat.Prime C.n)]
    (kp : OracleKeyPair) (trustId personName : String) (timestamp : Nat) (cert : Certificate)
    (h : MockOracle.issueDeathCertificate C kp trustId personName timestamp = some cert) :
    cert.message
      = "DEATH_CERT:" ++ trustId ++ ":" ++ personName ++ ":" ++ natToDec timestamp := by
  simp only [MockOracle.issueDeathCertificate] at h
  split at h
  · exact absurd h (by simp)
  · simp only [Option.some.injEq] at h
    subst h
    rfl

/-- `m` further checksum steps applied to a state difference. -/
def stepIter : Nat → Nat → Nat
  | 0, d => d
  | m + 1, d => stepIter m (polymodStep d)

/-- The checksum injection value of a word list: each word shifted through
the remaining steps. -/
def injVal : List Nat → Nat
  | [] => 0
  | v :: vs => stepIter vs.length v ^^^ injVal vs

/-- The short Weierstrass curve `y² = x³ + b` of an `OracleCurve` context,
as a Mathlib affine Weierstrass curve over `ZMod p`. -/
def oracleW (C : OracleCurve) : WeierstrassCurve.Affine (ZMod C.p) :=
  { a₁ := 0, a₂ := 0, a₃ := 0, a₄ := 0, a₆ := (C.b : ZMod C.p) }

/-- Forget the nonsingularity proof of a Mathlib point, yielding the
executable representation. -/
def ptoE (C : OracleCurve) [Fact (Nat.Prime C.p)] : (oracleW C).Point → EPoint C.p
  | .zero => none
  | @WeierstrassCurve.Affine.Point.some _ _ _ x y _ => some (x, y)

set_option maxRecDepth 100000

/-- C10: for every input message, the mock hash stored as `messageHash` is
64 hex characters whose first 56 are zero — the rolling 32-bit fold keeps
the value below `2^32`, so the first 28 bytes of the hash are zero. -/
theorem claim_C10 (message : String) :
    (MockOracle.sha256 message).length = 64 ∧
    (MockOracle.sha256 message).data.take 56 = List.replicate 56 '0' :=
  mockSha256_shape message

/-- C1 (code bug): on the concrete issuance input
`("trust-1", "Alice", timestamp 1700000000)` the stored `messageHash` is
not the SHA-256 digest of the stored `message`: the source's `_sha256` is
a rolling 32-bit fold, not SHA-256. -/
theorem claim_C1 :
    ((MockOracle.issueDeathCertificate toyCurve toyKeyPair "trust-1" "Alice" 1700000000).map
      (fun c => decide (c.messageHash = sha256Hex c.message))) = some false := by
  decide

/-- C9 counterexample: a concrete issued certificate whose
`certificateId` differs from the claimed
`"CERT-" ++ hex(first 4 bytes of trustId) ++ "-" ++ hex(timestamp)`
formula (the code takes the first 8 *characters* of the trust id, not the
hex of its first 4 bytes). -/
theorem claim_C9_counterexample :
    ((MockOracle.issueDeathCertificate toyCurve toyKeyPair "tb1pabcdef" "Bob" 255).map
      (fun c => decide (c.certificateId = specCertId c.trustId c.timestamp))) = some false := by
  decide

/-- C9 (amended): every issued certificate has
`certificateId = uppercase("CERT-" ++ first 8 characters of trustId ++ "-"
++ hex(timestamp))`. -/
theorem claim_C9 (C : OracleCurve) [Fact (Nat.Prime C.p)] [Fact (Nat.Prime C.n)]
    (kp : OracleKeyPair) (trustId personName : String) (timestamp : Nat) (cert : Certificate)
    (h : MockOracle.issueDeathCertificate C kp trustId personName timestamp = some cert) :
    cert.certificateId
      = "CERT-" ++ strUpper (strTake trustId 8) ++ "-" ++ strUpper (natToHex timestamp) := by
  rw [issue_certificateId C kp trustId personName timestamp cert h, generateCertId_eq]

/-- Witness for C9: the amended claim at the concrete issuance from the
counterexample. -/
theorem claim_C9_witness :
    MockOracle.issueDeathCertificate toyCurve toyKeyPair "tb1pabcdef" "Bob" 255 = some
      { trustId := "tb1pabcdef"
        personName := "Bob"
        timestamp := 255
        message := "DEATH_CERT:tb1pabcdef:Bob:255"
        messageHash := "0000000000000000000000000000000000000000000000000000000019db2a72"
        signature := "00000000000000000000000000000000000000000000000000000000000000380000000000000000000000000000000000000000000000000000000000000013"
        oraclePublicKey := "02000000000000000000000000000000000000000000000000000000000000002e"
        certificateId := "CERT-TB1PABCD-FF" } ∧
    ({ trustId := "tb1pabcdef"
       personName := "Bob"
       timestamp := 255
       message := "DEATH_CERT:tb1pabcdef:Bob:255"
       messageHash := "0000000000000000000000000000000000000000000000000000000019db2a72"
       signature := "00000000000000000000000000000000000000000000000000000000000000380000000000000000000000000000000000000000000000000000000000000013"
       oraclePublicKey := "02000000000000000000000000000000000000000000000000000000000000002e"
       certificateId := "CERT-TB1PABCD-FF" } : Certificate).certificateId
      = "CERT-" ++ strUpper (strTake "tb1pabcdef" 8) ++ "-" ++ strUpper (natToHex 255) :=
  ⟨by decide, claim_C9 toyCurve toyKeyPair "tb1pabcdef" "Bob" 255 _ (by decide)⟩

/-- C8 counterexample: issuance with a colon inside `trustId` succeeds and
produces an ambiguous colon-delimited message — no `InvalidIdentifierError`
exists in the code. -/
theorem claim_C8_counterexample :
    ((MockOracle.issueDeathCertificate toyCurve toyKeyPair "a:b" "Alice" 123).map
      (fun c => c.message)) = some "DEATH_CERT:a:b:Alice:123" := by
  decide

/-- C8 (amended): issuance never validates the delimiter — every issued
certificate, including one whose `trustId` or `personName` contains `":"`,
carries the raw colon-joined message. -/
theorem claim_C8 (C : OracleCurve) [Fact (Nat.Prime C.p)] [Fact (Nat.Prime C.n)]
    (kp : OracleKeyPair) (trustId personName : String) (timestamp : Nat) (cert : Certificate)
    (h : MockOracle.issueDeathCertificate C kp trustId personName timestamp = some cert) :
    cert.message
      = "DEATH_CERT:" ++ trustId ++ ":" ++ personName ++ ":" ++ natToDec timestamp :=
  issue_message C kp trustId personName timestamp cert h

/-- Witness for C8: the amended claim at a concrete input containing the
delimiter. -/
theorem claim_C8_witness :
    MockOracle.issueDeathCertificate toyCurve toyKeyPair "a:b" "Alice" 123 = some
      { trustId := "a:b"
        personName := "Alice"
        timestamp := 123
        message := "DEATH_CERT:a:b:Alice:123"
        messageHash := "000000000000000000000000000000000000000000000000000000001a16f45c"
        signature := "00000000000000000000000000000000000000000000000000000000000000100000000000000000000000000000000000000000000000000000000000000019"
        oraclePublicKey := "02000000000000000000000000000000000000000000000000000000000000002e"
        certificateId := "CERT-A:B-7B" } ∧
    ({ trustId := "a:b"
       personName := "Alice"
       timestamp := 123
       message := "DEATH_CERT:a:b:Alice:123"
       messageHash := "000000000000000000000000000000000000000000000000000000001a16f45c"
       signature := "00000000000000000000000000000000000000000000000000000000000000100000000000000000000000000000000000000000000000000000000000000019"
       oraclePublicKey := "02000000000000000000000000000000000000000000000000000000000000002e"
       certificateId := "CERT-A:B-7B" } : Certificate).message
      = "DEATH_CERT:" ++ "a:b" ++ ":" ++ "Alice" ++ ":" ++ natToDec 123 :=
  ⟨by decide, claim_C8 toyCurve toyKeyPair "a:b" "Alice" 123 _ (by decide)⟩

/-- C2 counterexample: the construction accepts a locktime of 499,999,999
(current time 499,996,399 plus one hour) and returns the trust — there is
no locktime validation and no `InvalidLocktimeError` in the code. -/
theorem claim_C2_counterexample :
    (createTaprootTrust demoOwnerKey demoHeirKey demoOracleKey 1 499996399).toOption.map
      (fun t => t.locktime) = some 499999999 ∧ 499999999 < 500000000 := by
  constructor
  · rfl
  · decide

/-- C2 (amended): trust construction performs no locktime validation —
whenever it returns a trust, that trust's locktime is exactly
`currentTime + timelockHours·3600`, whatever its value. -/
theorem claim_C2 (owner heir oracle : List Nat) (hours currentTime : Nat) :
    ((createTaprootTrust owner heir oracle hours currentTime).toOption.map
      (fun t => t.locktime)).getD (currentTime + hours * 3600)
      = currentTime + hours * 3600 := by
  unfold createTaprootTrust
  cases h1 : toXOnlyPublicKey owner <;>
    cases h2 : toXOnlyPublicKey heir <;>
      cases h3 : toXOnlyPublicKey oracle <;>
        simp [Except.toOption, h1, h2, h3]
  all_goals try rfl
  all_goals simp only [merkleRoot, bind, Except.bind]
  all_goals split <;> simp [Except.toOption]
  all_goals rename_i heq
  all_goals split at heq
  all_goals try cases heq
  all_goals split at heq
  all_goals try cases heq
  all_goals rfl

theorem toXOnly_length (pub x : List Nat) (h : toXOnlyPublicKey pub = .ok x) :
    x.length = 32 := by
  unfold toXOnlyPublicKey at h
  split_ifs at h with h1 h2 h3
  · cases h; simp [List.length_take, List.length_drop]; omega
  · cases h; simp [List.length_take, List.length_drop]; omega
  · cases h; omega

theorem minimalPush_of_len32 (x : List Nat) (h : x.length = 32) :
    minimalPush x = 32 :: x := by
  match x with
  | [] => simp at h
  | [b] => simp at h
  | a :: b :: rest =>
    simp only [List.length_cons] at h
    simp [minimalPush, h]

theorem createTaprootTrust_ok_scripts (owner heir oracle : List Nat) (hours ct : Nat)
    (trust : TaprootTrust) (heirX oracleX : List Nat)
    (hheir : toXOnlyPublicKey heir = .ok heirX)
    (horacle : toXOnlyPublicKey oracle = .ok oracleX)
    (h : createTaprootTrust owner heir oracle hours ct = .ok trust) :
    trust.scriptTimelock = bytesToHex (trustScripts (ct + hours * 3600) heirX oracleX).1 ∧
    trust.scriptOracle = bytesToHex (trustScripts (ct + hours * 3600) heirX oracleX).2 := by
  unfold createTaprootTrust at h
  rw [hheir, horacle] at h
  cases h1 : toXOnlyPublicKey owner <;> rw [h1] at h
  · cases h
  · simp only [merkleRoot, bind, Except.bind] at h
    split at h
    · cases h
    · split at h
      · cases h
      · cases h
        exact ⟨rfl, rfl⟩

/-- C6: the two leaf scripts have exactly the specified shape — the
timelock script is the minimal push of the locktime, `OP_CHECKLOCKTIMEVERIFY`,
`OP_DROP`, a 32-byte push of the heir key and `OP_CHECKSIG`; the oracle
script is a 32-byte push of the oracle key, `OP_CHECKSIGVERIFY`, a 32-byte
push of the heir key and `OP_CHECKSIG`. -/
theorem claim_C6 (owner heir oracle : List Nat) (hours ct : Nat)
    (trust : TaprootTrust) (heirX oracleX : List Nat)
    (hheir : toXOnlyPublicKey heir = .ok heirX)
    (horacle : toXOnlyPublicKey oracle = .ok oracleX)
    (h : createTaprootTrust owner heir oracle hours ct = .ok trust) :
    trust.scriptTimelock = bytesToHex (minimalPush (scriptNumEncode (ct + hours * 3600))
      ++ [OP_CHECKLOCKTIMEVERIFY, OP_DROP, 32] ++ heirX ++ [OP_CHECKSIG]) ∧
    trust.scriptOracle = bytesToHex ([32] ++ oracleX
      ++ [OP_CHECKSIGVERIFY, 32] ++ heirX ++ [OP_CHECKSIG]) := by
  obtain ⟨ht, ho⟩ := createTaprootTrust_ok_scripts owner heir oracle hours ct trust
    heirX oracleX hheir horacle h
  have hhl := toXOnly_length heir heirX hheir
  have hol := toXOnly_length oracle oracleX horacle
  constructor
  · rw [ht]
    congr 1
    simp [trustScripts, scriptCompile, minimalPush_of_len32 heirX hhl]
  · rw [ho]
    congr 1
    simp [trustScripts, scriptCompile, minimalPush_of_len32 heirX hhl,
      minimalPush_of_len32 oracleX hol]

/-- Witness for C6: the script shapes at a concrete trust construction. -/
theorem claim_C6_witness :
    (toXOnlyPublicKey demoHeirKey = .ok demoHeirKey ∧
     toXOnlyPublicKey demoOracleKey = .ok demoOracleKey ∧
     createTaprootTrust demoOwnerKey demoHeirKey demoOracleKey 1 499996399 = .ok
       { address := "tb1pz8h5l7k6jgutes8m37ccp26pdsjcn7ld5h4pawqe89hw78srachsytdqzd"
         internalPubkey := "79be667ef9dcbbac55a06295ce870b07029bfcdb2dce28d959f2815b16f81798"
         heirPubkey := "c6047f9441ed7d6d3045406e95c07cd85c778e4b8cef3ca7abac09b95c709ee5"
         oraclePubkey := "f9308a019258c31049344f85f89d5229b531c845836f99b08601f113bce036f9"
         locktime := 499999999
         scriptTimelock := "04ff64cd1db17520c6047f9441ed7d6d3045406e95c07cd85c778e4b8cef3ca7abac09b95c709ee5ac"
         scriptOracle := "20f9308a019258c31049344f85f89d5229b531c845836f99b08601f113bce036f9ad20c6047f9441ed7d6d3045406e95c07cd85c778e4b8cef3ca7abac09b95c709ee5ac"
         output := "512011ef4ffada9238bcc0fb8fb180ab416c2589fbeda5ea1eb819396eef1e03ee2f" }) ∧
    (({ address := "tb1pz8h5l7k6jgutes8m37ccp26pdsjcn7ld5h4pawqe89hw78srachsytdqzd"
        internalPubkey := "79be667ef9dcbbac55a06295ce870b07029bfcdb2dce28d959f2815b16f81798"
        heirPubkey := "c6047f9441ed7d6d3045406e95c07cd85c778e4b8cef3ca7abac09b95c709ee5"
        oraclePubkey := "f9308a019258c31049344f85f89d5229b531c845836f99b08601f113bce036f9"
        locktime := 499999999
        scriptTimelock := "04ff64cd1db17520c6047f9441ed7d6d3045406e95c07cd85c778e4b8cef3ca7abac09b95c709ee5ac"
        scriptOracle := "20f9308a019258c31049344f85f89d5229b531c845836f99b08601f113bce036f9ad20c6047f9441ed7d6d3045406e95c07cd85c778e4b8cef3ca7abac09b95c709ee5ac"
        output := "512011ef4ffada9238bcc0fb8fb180ab416c2589fbeda5ea1eb819396eef1e03ee2f" } : TaprootTrust).scriptTimelock
        = bytesToHex (minimalPush (scriptNumEncode (499996399 + 1 * 3600))
            ++ [OP_CHECKLOCKTIMEVERIFY, OP_DROP, 32] ++ demoHeirKey ++ [OP_CHECKSIG]) ∧
     ({ address := "tb1pz8h5l7k6jgutes8m37ccp26pdsjcn7ld5h4pawqe89hw78srachsytdqzd"
        internalPubkey := "79be667ef9dcbbac55a06295ce870b07029bfcdb2dce28d959f2815b16f81798"
        heirPubkey := "c6047f9441ed7d6d3045406e95c07cd85c778e4b8cef3ca7abac09b95c709ee5"
        oraclePubkey := "f9308a019258c31049344f85f89d5229b531c845836f99b08601f113bce036f9"
        locktime := 499999999
        scriptTimelock := "04ff64cd1db17520c6047f9441ed7d6d3045406e95c07cd85c778e4b8cef3ca7abac09b95c709ee5ac"
        scriptOracle := "20f9308a019258c31049344f85f89d5229b531c845836f99b08601f113bce036f9ad20c6047f9441ed7d6d3045406e95c07cd85c778e4b8cef3ca7abac09b95c709ee5ac"
        output := "512011ef4ffada9238bcc0fb8fb180ab416c2589fbeda5ea1eb819396eef1e03ee2f" } : TaprootTrust).scriptOracle
        = bytesToHex ([32] ++ demoOracleKey
            ++ [OP_CHECKSIGVERIFY, 32] ++ demoHeirKey ++ [OP_CHECKSIG])) :=
  ⟨⟨by rfl, by rfl, by rfl⟩,
   claim_C6 demoOwnerKey demoHeirKey demoOracleKey 1 499996399 _ demoHeirKey demoOracleKey
     (by rfl) (by rfl) (by rfl)⟩

/-- C7: certificate verification depends only on the `messageHash`,
`signature` and `oraclePublicKey` fields, and any internal error is
converted to `false` instead of being raised. -/
theorem claim_C7 (C : OracleCurve) [Fact (Nat.Prime C.p)] [Fact (Nat.Prime C.n)] :
    (∀ c1 c2 : Certificate, c1.messageHash = c2.messageHash →
      c1.signature = c2.signature → c1.oraclePublicKey = c2.oraclePublicKey →
      MockOracle.verifyCertificate C c1 = MockOracle.verifyCertificate C c2) ∧
    (∀ (c : Certificate) (e : String), MockOracle.verifyInner C c = .error e →
      MockOracle.verifyCertificate C c = false) := by
  constructor
  · intro c1 c2 h1 h2 h3
    unfold MockOracle.verifyCertificate MockOracle.verifyInner
    rw [h1, h2, h3]
  · intro c e he
    unfold MockOracle.verifyCertificate
    rw [he]

/-- Witness for C7: two concrete certificates agreeing on the three
relevant fields but differing everywhere else verify identically, and a
malformed certificate makes the inner verifier raise, which the wrapper
converts to `false`. -/
theorem claim_C7_witness :
    MockOracle.verifyCertificate toyCurve
      { trustId := "trust-1"
        personName := "Alice"
        timestamp := 1700000000
        message := "DEATH_CERT:trust-1:Alice:1700000000"
        messageHash := "0000000000000000000000000000000000000000000000000000000040ff74d7"
        signature := "00000000000000000000000000000000000000000000000000000000000000060000000000000000000000000000000000000000000000000000000000000015"
        oraclePublicKey := "02000000000000000000000000000000000000000000000000000000000000002e"
        certificateId := "CERT-TRUST-1-6553F100" }
      = MockOracle.verifyCertificate toyCurve
      { trustId := "other-trust"
        personName := "Mallory"
        timestamp := 42
        message := "a completely different message"
        messageHash := "0000000000000000000000000000000000000000000000000000000040ff74d7"
        signature := "00000000000000000000000000000000000000000000000000000000000000060000000000000000000000000000000000000000000000000000000000000015"
        oraclePublicKey := "02000000000000000000000000000000000000000000000000000000000000002e"
        certificateId := "CERT-OTHER-2A" } ∧
    MockOracle.verifyCertificate toyCurve
      { trustId := ""
        personName := ""
        timestamp := 0
        message := ""
        messageHash := "zz"
        signature := "not-hex"
        oraclePublicKey := ""
        certificateId := "" } = false :=
  ⟨(claim_C7 toyCurve).1 _ _ rfl rfl rfl,
   (claim_C7 toyCurve).2 _ "Expected Signature" (by rfl)⟩

/-! ### Checksum algebra -/

theorem nat_xor_left_comm (a b c : Nat) : a ^^^ (b ^^^ c) = b ^^^ (a ^^^ c) := by
  rw [← Nat.xor_assoc, Nat.xor_comm a b, Nat.xor_assoc]

theorem natAnd31 (x : Nat) : x &&& 31 = x % 32 := by
  have h := Nat.and_pow_two_sub_one_eq_mod x 5
  norm_num at h
  exact h

theorem natAnd25 (x : Nat) : x &&& 0x1ffffff = x % 2 ^ 25 := by
  have h := Nat.and_pow_two_sub_one_eq_mod x 25
  norm_num at h
  exact h

theorem shiftLeft_xor_distrib (x y k : Nat) :
    (x ^^^ y) <<< k = (x <<< k) ^^^ (y <<< k) := by
  apply Nat.eq_of_testBit_eq
  intro i
  simp only [Nat.testBit_shiftLeft, Nat.testBit_xor]
  by_cases h : k ≤ i <;> simp [h]

theorem shiftRight_xor_distrib (x y k : Nat) :
    (x ^^^ y) >>> k = (x >>> k) ^^^ (y >>> k) := by
  apply Nat.eq_of_testBit_eq
  intro i
  simp [Nat.testBit_shiftRight, Nat.testBit_xor]

theorem condXor (x y g : Nat) (hx : x ≤ 1) (hy : y ≤ 1) :
    (if x ^^^ y = 1 then g else 0)
      = (if x = 1 then g else 0) ^^^ (if y = 1 then g else 0) := by
  interval_cases x <;> interval_cases y <;> simp

theorem and_one_le_one (x : Nat) : x &&& 1 ≤ 1 := by
  rw [Nat.and_comm, Nat.one_and_eq_mod_two]
  omega

theorem bech32Gen_xor (a b : Nat) :
    bech32Gen (a ^^^ b) = bech32Gen a ^^^ bech32Gen b := by
  unfold bech32Gen
  have d0 : (a ^^^ b) &&& 1 = (a &&& 1) ^^^ (b &&& 1) := Nat.and_xor_distrib_right
  have s1 := shiftRight_xor_distrib a b 1
  have s2 := shiftRight_xor_distrib a b 2
  have s3 := shiftRight_xor_distrib a b 3
  have s4 := shiftRight_xor_distrib a b 4
  rw [d0, s1, s2, s3, s4]
  rw [Nat.and_xor_distrib_right, Nat.and_xor_distrib_right, Nat.and_xor_distrib_right,
    Nat.and_xor_distrib_right]
  rw [condXor _ _ _ (and_one_le_one a) (and_one_le_one b),
    condXor _ _ _ (and_one_le_one _) (and_one_le_one _),
    condXor _ _ _ (and_one_le_one _) (and_one_le_one _),
    condXor _ _ _ (and_one_le_one _) (and_one_le_one _),
    condXor _ _ _ (and_one_le_one _) (and_one_le_one _)]
  simp only [Nat.xor_assoc]
  congr 1
  simp only [← Nat.xor_assoc]
  congr 1
  simp [Nat.xor_assoc, Nat.xor_comm, nat_xor_left_comm]

theorem polymodStep_xor (a b : Nat) :
    polymodStep (a ^^^ b) = polymodStep a ^^^ polymodStep b := by
  unfold polymodStep
  rw [Nat.and_xor_distrib_right, shiftLeft_xor_distrib, shiftRight_xor_distrib,
    bech32Gen_xor]
  simp [Nat.xor_assoc, Nat.xor_comm, nat_xor_left_comm]

theorem polymodAux_append (chk : Nat) (xs ys : List Nat) :
    polymodAux chk (xs ++ ys) = polymodAux (polymodAux chk xs) ys := by
  induction xs generalizing chk with
  | nil => rfl
  | cons v vs ih =>
    simp only [List.cons_append, polymodAux]
    exact ih _

theorem polymodAux_xor (vs : List Nat) (chk d : Nat) :
    polymodAux (chk ^^^ d) vs = polymodAux chk vs ^^^ stepIter vs.length d := by
  induction vs generalizing chk d with
  | nil => rfl
  | cons v tl ih =>
    simp only [polymodAux, List.length_cons]
    have h1 : polymodStep (chk ^^^ d) ^^^ v = (polymodStep chk ^^^ v) ^^^ polymodStep d := by
      rw [polymodStep_xor]
      simp [Nat.xor_assoc, Nat.xor_comm, nat_xor_left_comm]
    rw [h1, ih]
    rfl

theorem bech32Gen_lt (b : Nat) : bech32Gen b < 2 ^ 30 := by
  unfold bech32Gen
  have h : ∀ (c : Prop) [Decidable c] (g : Nat), g < 2 ^ 30 → (if c then g else 0) < 2 ^ 30 := by
    intro c _ g hg
    split <;> omega
  apply Nat.xor_lt_two_pow
  apply Nat.xor_lt_two_pow
  apply Nat.xor_lt_two_pow
  apply Nat.xor_lt_two_pow
  all_goals apply h _ _ (by norm_num)

theorem polymodStep_lt (chk : Nat) : polymodStep chk < 2 ^ 30 := by
  unfold polymodStep
  apply Nat.xor_lt_two_pow
  · rw [natAnd25, Nat.shiftLeft_eq]
    have h25 : chk % 2 ^ 25 < 2 ^ 25 := Nat.mod_lt _ (by norm_num)
    omega
  · exact bech32Gen_lt _

theorem polymodAux_lt (vs : List Nat) (chk : Nat) (hv : ∀ v ∈ vs, v < 32)
    (hc : chk < 2 ^ 30) : polymodAux chk vs < 2 ^ 30 := by
  induction vs generalizing chk with
  | nil => exact hc
  | cons v tl ih =>
    apply ih _ (fun w hw => hv w (List.mem_cons_of_mem _ hw))
    apply Nat.xor_lt_two_pow (polymodStep_lt _)
    have := hv v (List.mem_cons_self _ _)
    omega

theorem bech32Gen_low_ne_zero : ∀ b : Nat, b < 32 → b ≠ 0 → bech32Gen b &&& 31 ≠ 0 := by
  decide

theorem shl5_and31 (a : Nat) : (a <<< 5) &&& 31 = 0 := by
  rw [natAnd31, Nat.shiftLeft_eq]
  omega

theorem polymodStep_ne_zero (d : Nat) (hd : d < 2 ^ 30) (h0 : d ≠ 0) :
    polymodStep d ≠ 0 := by
  intro hstep
  have hlow : polymodStep d &&& 31 = 0 := by rw [hstep]; rfl
  unfold polymodStep at hlow
  rw [Nat.and_xor_distrib_right, shl5_and31, Nat.zero_xor] at hlow
  have htop : d >>> 25 < 32 := by
    rw [Nat.shiftRight_eq_div_pow]
    omega
  by_cases ht : d >>> 25 = 0
  · have hgen : bech32Gen (d >>> 25) = 0 := by rw [ht]; rfl
    unfold polymodStep at hstep
    rw [hgen, Nat.xor_zero] at hstep
    have hd25 : d < 2 ^ 25 := by
      rw [Nat.shiftRight_eq_div_pow] at ht
      omega
    rw [natAnd25, Nat.mod_eq_of_lt hd25, Nat.shiftLeft_eq] at hstep
    omega
  · exact bech32Gen_low_ne_zero _ htop ht hlow

theorem stepIter_ne_zero (m d : Nat) (hd : d < 2 ^ 30) (h0 : d ≠ 0) :
    stepIter m d ≠ 0 ∧ stepIter m d < 2 ^ 30 := by
  induction m generalizing d with
  | zero => exact ⟨h0, hd⟩
  | succ m ih => exact ih _ (polymodStep_lt d) (polymodStep_ne_zero d hd h0)

theorem stepIter_small : ∀ (k c : Nat), k ≤ 5 → c < 2 ^ (30 - 5 * k) →
    stepIter k c = c <<< (5 * k) := by
  intro k
  induction k with
  | zero => intro c _ _; simp [stepIter]
  | succ k ih =>
    intro c hk hc
    have hc25 : c < 2 ^ 25 := by
      have : (30 : Nat) - 5 * (k + 1) ≤ 25 := by omega
      exact lt_of_lt_of_le hc (Nat.pow_le_pow_right (by norm_num) this)
    have hstep : polymodStep c = c <<< 5 := by
      unfold polymodStep
      have ht : c >>> 25 = 0 := by
        rw [Nat.shiftRight_eq_div_pow]
        exact Nat.div_eq_of_lt hc25
      rw [ht, natAnd25, Nat.mod_eq_of_lt hc25]
      show c <<< 5 ^^^ bech32Gen 0 = c <<< 5
      have : bech32Gen 0 = 0 := rfl
      rw [this, Nat.xor_zero]
    show stepIter k (polymodStep c) = c <<< (5 * (k + 1))
    rw [hstep, ih (c <<< 5) (by omega) ?_]
    · rw [← Nat.shiftLeft_add]
      congr 1
      omega
    · rw [Nat.shiftLeft_eq]
      have : (30 : Nat) - 5 * k = (30 - 5 * (k + 1)) + 5 := by omega
      rw [this, pow_add]
      exact Nat.mul_lt_mul_of_pos_right hc (by norm_num)

theorem chunks_recompose (y : Nat) (hy : y < 2 ^ 30) :
    ((y >>> 25) &&& 31) <<< 25 ^^^
      (((y >>> 20) &&& 31) <<< 20 ^^^
        (((y >>> 15) &&& 31) <<< 15 ^^^
          (((y >>> 10) &&& 31) <<< 10 ^^^
            (((y >>> 5) &&& 31) <<< 5 ^^^ (y &&& 31))))) = y := by
  apply Nat.eq_of_testBit_eq
  intro i
  rcases Nat.lt_or_ge i 30 with hi | hi
  · simp only [Nat.testBit_xor, Nat.testBit_shiftLeft, natAnd31, Nat.testBit_shiftRight]
    have h32 : (32 : Nat) = 2 ^ 5 := by norm_num
    simp only [h32, Nat.testBit_mod_two_pow]
    interval_cases i <;> simp
  · have htb32 : ∀ (x j : Nat), (x % 32).testBit j = (decide (j < 5) && x.testBit j) := by
      intro x j
      have h32 : (32 : Nat) = 2 ^ 5 := by norm_num
      rw [h32, Nat.testBit_mod_two_pow]
    have hzero : ∀ (s : Nat), s ≤ 25 → Nat.testBit (((y >>> s) &&& 31) <<< s) i = false := by
      intro s hs
      rw [natAnd31, Nat.testBit_shiftLeft]
      by_cases hsi : s ≤ i
      · rw [htb32]
        have hns : ¬ (i - s < 5) := by omega
        simp [hsi, hns]
      · simp [hsi]
    simp only [Nat.testBit_xor, hzero 25 (by norm_num), hzero 20 (by norm_num),
      hzero 15 (by norm_num), hzero 10 (by norm_num), hzero 5 (by norm_num)]
    have hlast : Nat.testBit (y &&& 31) i = false := by
      rw [natAnd31]
      have h32 : (32 : Nat) = 2 ^ 5 := by norm_num
      rw [h32]
      simp only [Nat.testBit_mod_two_pow]
      have : ¬ (i < 5) := by omega
      simp [this]
    rw [hlast]
    have : Nat.testBit y i = false :=
      Nat.testBit_eq_false_of_lt (lt_of_lt_of_le hy (Nat.pow_le_pow_right (by norm_num) hi))
    rw [this]
    rfl

theorem polymodAux_eq_zeros_xor (vs : List Nat) (chk : Nat) :
    polymodAux chk vs
      = polymodAux chk (List.replicate vs.length 0) ^^^ injVal vs := by
  induction vs generalizing chk with
  | nil => simp [injVal, polymodAux]
  | cons v tl ih =>
    show polymodAux (polymodStep chk ^^^ v) tl = _
    have h1 : polymodStep chk ^^^ v = (polymodStep chk ^^^ 0) ^^^ v := by
      rw [Nat.xor_zero]
    rw [h1, polymodAux_xor, ih]
    show _ = polymodAux (polymodStep chk ^^^ 0) (List.replicate tl.length 0)
      ^^^ (stepIter tl.length v ^^^ injVal tl)
    simp [Nat.xor_assoc, Nat.xor_comm, nat_xor_left_comm]

theorem injVal_checksumWords (y : Nat) (hy : y < 2 ^ 30) :
    injVal (checksumWords y) = y := by
  have hchunk : ∀ (s : Nat), (y >>> s) &&& 31 < 32 := by
    intro s
    rw [natAnd31]
    exact Nat.mod_lt _ (by norm_num)
  show stepIter 5 ((y >>> 25) &&& 31) ^^^ (stepIter 4 ((y >>> 20) &&& 31) ^^^
    (stepIter 3 ((y >>> 15) &&& 31) ^^^ (stepIter 2 ((y >>> 10) &&& 31) ^^^
      (stepIter 1 ((y >>> 5) &&& 31) ^^^ (stepIter 0 (y &&& 31) ^^^ 0))))) = y
  rw [stepIter_small 5 _ (by norm_num) (by have := hchunk 25; norm_num; omega),
    stepIter_small 4 _ (by norm_num) (by have := hchunk 20; norm_num; omega),
    stepIter_small 3 _ (by norm_num) (by have := hchunk 15; norm_num; omega),
    stepIter_small 2 _ (by norm_num) (by have := hchunk 10; norm_num; omega),
    stepIter_small 1 _ (by norm_num) (by have := hchunk 5; norm_num; omega)]
  show ((y >>> 25) &&& 31) <<< 25 ^^^ (((y >>> 20) &&& 31) <<< 20 ^^^
    (((y >>> 15) &&& 31) <<< 15 ^^^ (((y >>> 10) &&& 31) <<< 10 ^^^
      (((y >>> 5) &&& 31) <<< 5 ^^^ (stepIter 0 (y &&& 31) ^^^ 0))))) = y
  show ((y >>> 25) &&& 31) <<< 25 ^^^ (((y >>> 20) &&& 31) <<< 20 ^^^
    (((y >>> 15) &&& 31) <<< 15 ^^^ (((y >>> 10) &&& 31) <<< 10 ^^^
      (((y >>> 5) &&& 31) <<< 5 ^^^ ((y &&& 31) ^^^ 0))))) = y
  rw [Nat.xor_zero]
  exact chunks_recompose y hy

/-- Appending the computed checksum words makes the checksum state equal
the encoding constant. -/
theorem checksum_verifies (chk0 enc : Nat) (ws : List Nat)
    (hchk : chk0 < 2 ^ 30) (hws : ∀ v ∈ ws, v < 32) (henc : enc < 2 ^ 30) :
    polymodAux chk0 (ws ++ checksumWords
      (polymodAux (polymodAux chk0 ws) [0, 0, 0, 0, 0, 0] ^^^ enc)) = enc := by
  set chk1 := polymodAux chk0 ws with hchk1
  have h1 : chk1 < 2 ^ 30 := polymodAux_lt ws chk0 hws hchk
  have h2 : polymodAux chk1 [0, 0, 0, 0, 0, 0] < 2 ^ 30 := by
    apply polymodAux_lt _ _ _ h1
    intro v hv
    simp at hv
    omega
  have htarget : polymodAux chk1 [0, 0, 0, 0, 0, 0] ^^^ enc < 2 ^ 30 :=
    Nat.xor_lt_two_pow h2 henc
  rw [polymodAux_append]
  rw [polymodAux_eq_zeros_xor (checksumWords _) chk1]
  have hlen : (checksumWords (polymodAux chk1 [0, 0, 0, 0, 0, 0] ^^^ enc)).length = 6 := rfl
  rw [hlen, injVal_checksumWords _ htarget]
  show polymodAux chk1 [0, 0, 0, 0, 0, 0] ^^^
    (polymodAux chk1 [0, 0, 0, 0, 0, 0] ^^^ enc) = enc
  rw [← Nat.xor_assoc, Nat.xor_self, Nat.zero_xor]

theorem regroup_aux : ∀ (bs : List Nat), (∀ b ∈ bs, b < 256) →
    ∀ (v1 bits1 v2 : Nat), bits1 < 5 →
    fromWordsGo v2 ((8 - bits1) % 8) (toWordsGo v1 bits1 bs)
      = some (if bits1 = 0 then bs
              else ((v2 % 2 ^ (8 - bits1)) * 2 ^ bits1 + v1 % 2 ^ bits1) :: bs) := by
  intro bs
  induction bs with
  | nil =>
    intro _ v1 bits1 v2 hb
    interval_cases bits1 <;> simp only [toWordsGo, fromWordsGo] <;> norm_num <;> omega
  | cons b rest ih =>
    intro hlt v1 bits1 v2 hb
    have hb256 : b < 256 := hlt b (List.mem_cons_self _ _)
    have hrest : ∀ x ∈ rest, x < 256 := fun x hx => hlt x (List.mem_cons_of_mem _ hx)
    interval_cases bits1
    · -- bits1 = 0: one word emitted, new toWords state (v, 3)
      simp only [toWordsGo, fromWordsGo]
      norm_num
      have h := ih hrest (v1 * 256 + b) 3 (v2 * 32 + (v1 * 256 + b) / 8 % 32) (by omega)
      norm_num at h
      rw [h]
      simp only [Option.map_some', Option.some.injEq, List.cons.injEq, and_true]
      repeat' apply And.intro
      all_goals first
        | omega
        | exact ⟨rest, rfl, by omega, by omega, rfl⟩
    · -- bits1 = 1: t = 9, one word, new state (v, 4); fromWords emits a byte
      simp only [toWordsGo, fromWordsGo]
      norm_num
      have h := ih hrest (v1 * 256 + b) 4 (v2 * 32 + (v1 * 256 + b) / 16 % 32) (by omega)
      norm_num at h
      rw [h]
      simp only [Option.map_some', Option.some.injEq, List.cons.injEq, and_true]
      repeat' apply And.intro
      all_goals first
        | omega
        | exact ⟨rest, rfl, by omega, by omega, rfl⟩
    · -- bits1 = 2: t = 10, two words, new state (v, 0); fromWords emits two bytes
      simp only [toWordsGo, fromWordsGo]
      norm_num
      have h := ih hrest (v1 * 256 + b) 0
        ((v2 * 32 + (v1 * 256 + b) / 32 % 32) * 32 + (v1 * 256 + b) % 32) (by omega)
      norm_num at h
      rw [h]
      simp only [Option.map_some', Option.some.injEq, List.cons.injEq, and_true]
      repeat' apply And.intro
      all_goals first
        | omega
        | exact ⟨rest, rfl, by omega, by omega, rfl⟩
    · -- bits1 = 3: t = 11, two words, new state (v, 1)
      simp only [toWordsGo, fromWordsGo]
      norm_num
      have h := ih hrest (v1 * 256 + b) 1
        ((v2 * 32 + (v1 * 256 + b) / 64 % 32) * 32 + (v1 * 256 + b) / 2 % 32) (by omega)
      norm_num at h
      rw [h]
      simp only [Option.map_some', Option.some.injEq, List.cons.injEq, and_true]
      repeat' apply And.intro
      all_goals first
        | omega
        | exact ⟨rest, rfl, by omega, by omega, rfl⟩
    · -- bits1 = 4: t = 12, two words, new state (v, 2)
      simp only [toWordsGo, fromWordsGo]
      norm_num
      have h := ih hrest (v1 * 256 + b) 2
        ((v2 * 32 + (v1 * 256 + b) / 128 % 32) * 32 + (v1 * 256 + b) / 4 % 32) (by omega)
      norm_num at h
      rw [h]
      simp only [Option.map_some', Option.some.injEq, List.cons.injEq, and_true]
      repeat' apply And.intro
      all_goals first
        | omega
        | exact ⟨rest, rfl, by omega, by omega, rfl⟩

theorem fromWords_toWords (bs : List Nat) (h : ∀ b ∈ bs, b < 256) :
    fromWords (toWords bs) = some bs := by
  have := regroup_aux bs h 0 0 0 (by omega)
  norm_num at this
  exact this

theorem charsetVal_getD : ∀ w : Nat, w < 32 →
    charsetVal (bech32Charset.getD w ' ') = some w := by
  decide

theorem asciiLower_getD : ∀ w : Nat, w < 32 →
    asciiLower (bech32Charset.getD w ' ') = bech32Charset.getD w ' ' := by
  decide

theorem getD_ne_one : ∀ w : Nat, w < 32 → bech32Charset.getD w ' ' ≠ '1' := by
  decide

theorem checksumWords_lt (y : Nat) : ∀ v ∈ checksumWords y, v < 32 := by
  intro v hv
  simp only [checksumWords, List.mem_cons, List.not_mem_nil, or_false] at hv
  rcases hv with h | h | h | h | h | h <;> subst h <;> rw [natAnd31] <;>
    exact Nat.mod_lt _ (by norm_num)

theorem charsVals_map (ws : List Nat) (h : ∀ w ∈ ws, w < 32) :
    charsVals (ws.map (fun w => bech32Charset.getD w ' ')) = some ws := by
  induction ws with
  | nil => rfl
  | cons w tl ih =>
    have hw : w < 32 := h w (List.mem_cons_self _ _)
    have htl := ih (fun x hx => h x (List.mem_cons_of_mem _ hx))
    simp only [List.map_cons, charsVals, charsetVal_getD w hw, htl]

theorem findIdx_one_append : ∀ (l : List Char) (i : Nat), '1' ∉ l →
    List.findIdx? (fun d => d = '1') (l ++ ['1', 'b', 't']) i = some (i + l.length) := by
  intro l
  induction l with
  | nil => intro i _; rfl
  | cons c cs ih =>
    intro i hmem
    have hc : ¬ (c = '1') := fun h => hmem (h ▸ List.mem_cons_self _ _)
    have hcs : '1' ∉ cs := fun h => hmem (List.mem_cons_of_mem _ h)
    simp only [List.cons_append, List.findIdx?_cons, decide_eq_true_eq]
    rw [if_neg hc, ih (i + 1) hcs]
    simp only [List.length_cons, Option.some.injEq]
    omega

theorem lastIdxOf_structure (ds : List Char) (h : '1' ∉ ds) :
    lastIdxOf '1' ('t' :: 'b' :: '1' :: ds) = some 2 := by
  unfold lastIdxOf
  have hrev : ('t' :: 'b' :: '1' :: ds).reverse = ds.reverse ++ ['1', 'b', 't'] := by
    simp
  rw [hrev, findIdx_one_append ds.reverse 0 (by simpa using h)]
  simp
  omega

theorem toWordsGo_lt : ∀ (bs : List Nat) (v bits : Nat), ∀ w ∈ toWordsGo v bits bs, w < 32 := by
  intro bs
  induction bs with
  | nil =>
    intro v bits w hw
    simp only [toWordsGo] at hw
    split at hw
    · simp at hw
      omega
    · simp at hw
  | cons b rest ih =>
    intro v bits w hw
    simp only [toWordsGo] at hw
    split at hw <;> simp only [List.mem_cons] at hw
    · rcases hw with h | h | h
      · omega
      · omega
      · exact ih _ _ w h
    · rcases hw with h | h
      · omega
      · exact ih _ _ w h

theorem toWordsGo_length_le : ∀ (bs : List Nat) (v bits : Nat),
    (toWordsGo v bits bs).length ≤ 2 * bs.length + 1 := by
  intro bs
  induction bs with
  | nil =>
    intro v bits
    simp only [toWordsGo]
    split <;> simp
  | cons b rest ih =>
    intro v bits
    simp only [toWordsGo]
    split
    · simp only [List.length_cons]
      have h := ih (v * 256 + b) (bits + 8 - 10)
      omega
    · simp only [List.length_cons]
      have h := ih (v * 256 + b) (bits + 8 - 5)
      omega

theorem listSetTake : ∀ (l : List Char) (i k : Nat) (c : Char),
    (l.set i c).take k = (l.take k).set i c := by
  intro l
  induction l with
  | nil => intro i k c; simp
  | cons x xs ih =>
    intro i k c
    cases k with
    | zero => simp
    | succ k =>
      cases i with
      | zero => simp
      | succ i =>
        simp only [List.set_cons_succ, List.take_succ_cons]
        rw [ih]

theorem listSetDrop : ∀ (k : Nat) (l : List Char) (i : Nat) (c : Char), k ≤ i →
    (l.set i c).drop k = (l.drop k).set (i - k) c := by
  intro k
  induction k with
  | zero => intro l i c _; simp
  | succ k ih =>
    intro l i c hk
    cases l with
    | nil => simp
    | cons x xs =>
      cases i with
      | zero => omega
      | succ i =>
        simp only [List.set_cons_succ, List.drop_succ_cons]
        rw [ih xs i c (by omega)]
        congr 1
        omega

theorem charsVals_length : ∀ (l : List Char) (vs : List Nat),
    charsVals l = some vs → vs.length = l.length := by
  intro l
  induction l with
  | nil => intro vs h; simp only [charsVals, Option.some.injEq] at h; simp [← h]
  | cons x xs ih =>
    intro vs h
    simp only [charsVals] at h
    cases hx : charsetVal x with
    | none => rw [hx] at h; cases h
    | some v =>
      rw [hx] at h
      cases hxs : charsVals xs with
      | none => rw [hxs] at h; cases h
      | some ws =>
        rw [hxs] at h
        cases h
        simp [ih ws hxs]

theorem charsVals_getD : ∀ (l : List Char) (vs : List Nat) (k : Nat),
    charsVals l = some vs → k < l.length →
    charsetVal (l.getD k ' ') = some (vs.getD k 0) := by
  intro l
  induction l with
  | nil => intro vs k _ hk; simp at hk
  | cons x xs ih =>
    intro vs k h hk
    simp only [charsVals] at h
    cases hx : charsetVal x with
    | none => rw [hx] at h; cases h
    | some v =>
      rw [hx] at h
      cases hxs : charsVals xs with
      | none => rw [hxs] at h; cases h
      | some ws =>
        rw [hxs] at h
        cases h
        cases k with
        | zero => simpa using hx
        | succ k =>
          simp only [List.getD_cons_succ]
          exact ih ws k hxs (by simpa using hk)

theorem charsVals_set_some : ∀ (l : List Char) (vs : List Nat) (k : Nat) (c : Char) (v : Nat),
    charsVals l = some vs → charsetVal c = some v →
    charsVals (l.set k c) = some (vs.set k v) := by
  intro l
  induction l with
  | nil =>
    intro vs k c v h _
    simp only [charsVals, Option.some.injEq] at h
    simp [← h, charsVals]
  | cons x xs ih =>
    intro vs k c v h hc
    simp only [charsVals] at h
    cases hx : charsetVal x with
    | none => rw [hx] at h; cases h
    | some w =>
      rw [hx] at h
      cases hxs : charsVals xs with
      | none => rw [hxs] at h; cases h
      | some ws =>
        rw [hxs] at h
        cases h
        cases k with
        | zero => simp [charsVals, hc, hxs]
        | succ k =>
          simp only [List.set_cons_succ, charsVals, hx, ih ws k c v hxs hc]

theorem charsVals_set_none : ∀ (l : List Char) (k : Nat) (c : Char),
    charsetVal c = none → k < l.length →
    charsVals (l.set k c) = none := by
  intro l
  induction l with
  | nil => intro k c _ hk; simp at hk
  | cons x xs ih =>
    intro k c hc hk
    cases k with
    | zero => simp [charsVals, hc]
    | succ k =>
      simp only [List.set_cons_succ, charsVals]
      rw [ih k c hc (by simpa using hk)]
      cases charsetVal x <;> rfl

theorem findIdx_found : ∀ (l : List Char) (i j : Nat) (c : Char),
    List.findIdx? (fun d => d = c) l i = some j →
    i ≤ j ∧ j - i < l.length ∧ l.getD (j - i) ' ' = c := by
  intro l
  induction l with
  | nil => intro i j c h; simp [List.findIdx?] at h
  | cons x xs ih =>
    intro i j c h
    simp only [List.findIdx?_cons, decide_eq_true_eq] at h
    by_cases hx : x = c
    · rw [if_pos hx] at h
      cases h
      simp [hx]
    · rw [if_neg hx] at h
      obtain ⟨h1, h2, h3⟩ := ih (i + 1) j c h
      refine ⟨by omega, by simp; omega, ?_⟩
      have : j - i = (j - (i + 1)) + 1 := by omega
      rw [this, List.getD_cons_succ]
      exact h3

theorem findIdx_before : ∀ (l : List Char) (i j : Nat) (c : Char),
    List.findIdx? (fun d => d = c) l i = some j →
    ∀ m, m < j - i → l.getD m ' ' ≠ c := by
  intro l
  induction l with
  | nil => intro i j c h; simp [List.findIdx?] at h
  | cons x xs ih =>
    intro i j c h m hm
    simp only [List.findIdx?_cons, decide_eq_true_eq] at h
    by_cases hx : x = c
    · rw [if_pos hx] at h
      cases h
      omega
    · rw [if_neg hx] at h
      cases m with
      | zero => simpa using hx
      | succ m =>
        simp only [List.getD_cons_succ]
        exact ih (i + 1) j c h m (by omega)

theorem charsetVal_some_inv (c : Char) (v : Nat) (h : charsetVal c = some v) :
    v < 32 ∧ bech32Charset.getD v ' ' = c := by
  simp only [charsetVal, Option.map_id'] at h
  have h' : List.findIdx? (fun d => d = c) bech32Charset 0 = some v := by
    cases hf : List.findIdx? (fun d => d = c) bech32Charset 0 with
    | none => rw [hf] at h; cases h
    | some w => rw [hf] at h; cases h; rfl
  obtain ⟨_, h2, h3⟩ := findIdx_found bech32Charset 0 v c h'
  simp only [Nat.sub_zero] at h2 h3
  exact ⟨by simpa using h2, h3⟩

theorem no_one_after (l : List Char) (h : lastIdxOf '1' l = some 2) (hL : 8 ≤ l.length) :
    ∀ n, 2 < n → n < l.length → l.getD n ' ' ≠ '1' := by
  intro n hn2 hnL
  simp only [lastIdxOf] at h
  cases hf : List.findIdx? (fun d => d = '1') l.reverse 0 with
  | none => rw [hf] at h; cases h
  | some j =>
    rw [hf] at h
    simp only [Option.some.injEq] at h
    obtain ⟨_, h2, _⟩ := findIdx_found l.reverse 0 j '1' hf
    simp only [Nat.sub_zero, List.length_reverse] at h2
    have hj : j = l.length - 3 := by omega
    have hb := findIdx_before l.reverse 0 j '1' hf (l.length - 1 - n) (by omega)
    intro hcon
    apply hb
    have hm : l.length - 1 - n < l.reverse.length := by simp; omega
    rw [List.getD_eq_getElem l.reverse ' ' hm, List.getElem_reverse]
    have : l.length - 1 - (l.length - 1 - n) = n := by omega
    simp only [this]
    rw [← List.getD_eq_getElem l ' ' hnL]
    exact hcon

theorem take4_cons (l : List Char) (h : l.take 4 = ['t', 'b', '1', 'p']) :
    ∃ r, l = 't' :: 'b' :: '1' :: 'p' :: r := by
  match l with
  | [] => simp at h
  | [a] => simp at h
  | [a, b] => simp at h
  | [a, b, c] => simp at h
  | a :: b :: c :: d :: r =>
    simp only [List.take_succ_cons, List.take_zero, List.cons.injEq, and_true] at h
    obtain ⟨h1, h2, h3, h4⟩ := h
    exact ⟨r, by rw [h1, h2, h3, h4]⟩

theorem isXOnlyPoint_length (bs : List Nat) (h : isXOnlyPoint bs = true) :
    bs.length = 32 := by
  simp only [isXOnlyPoint, Bool.and_eq_true, decide_eq_true_eq] at h
  exact h.1

theorem polymod_set (chk : Nat) (vals : List Nat) (k v : Nat) (hk : k < vals.length) :
    polymodAux chk (vals.set k v) =
      polymodAux chk vals ^^^ stepIter (vals.length - (k + 1)) (vals.getD k 0 ^^^ v) := by
  have hdecomp : vals = vals.take k ++ vals.getD k 0 :: vals.drop (k + 1) := by
    rw [List.getD_eq_getElem vals 0 hk]
    conv_lhs => rw [← List.take_append_drop k vals, List.drop_eq_getElem_cons hk]
  have hset : vals.set k v = vals.take k ++ v :: vals.drop (k + 1) := by
    rw [List.set_eq_take_append_cons_drop, if_pos hk]
  have h1 : polymodAux chk vals =
      polymodAux (polymodStep (polymodAux chk (vals.take k)) ^^^ vals.getD k 0)
        (vals.drop (k + 1)) := by
    conv_lhs => rw [hdecomp]
    rw [polymodAux_append]
    rfl
  have h2 : polymodAux chk (vals.set k v) =
      polymodAux (polymodStep (polymodAux chk (vals.take k)) ^^^ v) (vals.drop (k + 1)) := by
    rw [hset, polymodAux_append]
    rfl
  have hx : polymodStep (polymodAux chk (vals.take k)) ^^^ v =
      (polymodStep (polymodAux chk (vals.take k)) ^^^ vals.getD k 0) ^^^
        (vals.getD k 0 ^^^ v) := by
    rw [Nat.xor_assoc, ← Nat.xor_assoc (vals.getD k 0), Nat.xor_self, Nat.zero_xor]
  rw [h2, hx, polymodAux_xor, ← h1, List.length_drop]

theorem mixed_none (enc : Nat) (str : List Char) (h8 : 8 ≤ str.length)
    (h90 : str.length ≤ 90) (hl : str.map asciiLower ≠ str)
    (hu : str.map asciiUpper ≠ str) : bech32DecodeGen enc str = none := by
  unfold bech32DecodeGen
  rw [if_neg (by omega), if_neg (by omega), if_pos ⟨fun h => hl h.symm, fun h => hu h.symm⟩]

theorem decode_forward (enc : Nat) (str : List Char) (chk0 : Nat)
    (h10 : 10 ≤ str.length) (h90 : str.length ≤ 90)
    (hlow : str.map asciiLower = str)
    (hsplit : lastIdxOf '1' str = some 2)
    (htb : str.take 2 = ['t', 'b'])
    (hchk : hrpChk ['t', 'b'] = some chk0) :
    bech32DecodeGen enc str =
      match charsVals (str.drop 3) with
      | none => none
      | some vals =>
        if polymodAux chk0 vals = enc then some (['t', 'b'], vals.take (vals.length - 6))
        else none := by
  unfold bech32DecodeGen
  rw [if_neg (by omega), if_neg (by omega)]
  rw [if_neg (by rw [hlow]; simp)]
  simp only [hlow, hsplit]
  rw [if_neg (by decide)]
  rw [if_neg (by simp; omega)]
  have h3 : (2 : Nat) + 1 = 3 := rfl
  rw [h3, htb, hchk]
  cases hv : charsVals (str.drop 3) with
  | none => rfl
  | some vals => rfl

theorem decodeGen_inv (enc : Nat) (str : List Char) (hh : List Char) (w : List Nat)
    (h : bech32DecodeGen enc str = some (hh, w)) :
    8 ≤ str.length ∧ str.length ≤ 90 ∧
    (str.map asciiLower = str ∨ str.map asciiUpper = str) ∧
    ∃ split vals chk0,
      lastIdxOf '1' (str.map asciiLower) = some split ∧ split ≠ 0 ∧
      hh = (str.map asciiLower).take split ∧
      6 ≤ ((str.map asciiLower).drop (split + 1)).length ∧
      hrpChk hh = some chk0 ∧
      charsVals ((str.map asciiLower).drop (split + 1)) = some vals ∧
      polymodAux chk0 vals = enc ∧
      w = vals.take (vals.length - 6) := by
  unfold bech32DecodeGen at h
  split at h
  · cases h
  split at h
  · cases h
  rename_i hle hgt
  simp only [ne_eq] at h
  split at h
  · cases h
  rename_i hcase
  push_neg at hcase
  refine ⟨by omega, by omega, ?_, ?_⟩
  · by_cases hc : str = str.map asciiLower
    · exact Or.inl hc.symm
    · exact Or.inr (hcase hc).symm
  · split at h
    · cases h
    rename_i split hspl
    split at h
    · cases h
    rename_i hspl0
    split at h
    · cases h
    rename_i hlen6
    split at h
    · rename_i chk0 vals hchk hvals
      split at h
      · rename_i hpoly
        simp only [Option.some.injEq, Prod.mk.injEq] at h
        exact ⟨split, vals, chk0, hspl, hspl0, h.1.symm, by omega,
          by rw [← h.1]; exact hchk, hvals, hpoly, h.2.symm⟩
      · cases h
    · cases h

theorem hrpChk_tb : hrpChk ['t', 'b'] = some 36799106 := by decide

theorem fromBech32_inv (str : List Char) (d : Bech32Decoded) (h : fromBech32 str = some d) :
    ∃ w, (bech32DecodeGen 1 str = some (d.hrPart, w) ∧
            w.head? = some d.version ∧ d.version = 0) ∨
         (bech32DecodeGen bech32mConst str = some (d.hrPart, w) ∧
            w.head? = some d.version ∧ d.version ≠ 0) := by
  unfold fromBech32 at h
  split at h
  · rename_i hrp words heq
    split at h
    · rename_i v rest
      split at h
      · rename_i hv
        rw [Option.map_eq_some'] at h
        obtain ⟨prog, _, hd⟩ := h
        exact ⟨v :: rest, Or.inl ⟨by rw [← hd]; exact heq, by rw [← hd]; rfl,
          by rw [← hd]; exact hv⟩⟩
      · cases h
    · cases h
  · rename_i heq1
    split at h
    · rename_i hrp words heq
      split at h
      · rename_i v rest
        split at h
        · rename_i hv
          rw [Option.map_eq_some'] at h
          obtain ⟨prog, _, hd⟩ := h
          exact ⟨v :: rest, Or.inr ⟨by rw [← hd]; exact heq, by rw [← hd]; rfl,
            by rw [← hd]; exact hv⟩⟩
        · cases h
      · cases h
    · cases h

theorem toOutputScript_inv (str : List Char) (out : List Nat)
    (h : toOutputScript str = some out) :
    ∃ d, fromBech32 str = some d ∧ d.hrPart = ['t', 'b'] := by
  unfold toOutputScript at h
  split at h
  · cases h
  · rename_i d heq
    refine ⟨d, heq, ?_⟩
    split at h
    · cases h
    · rename_i hhrp
      simpa using hhrp

theorem take_append_len : ∀ (l1 l2 : List Nat), (l1 ++ l2).take l1.length = l1 := by
  intro l1 l2
  induction l1 with
  | nil => rfl
  | cons a t ih => simp [ih]

theorem toBech32_valid (prog : List Nat) (addr : String)
    (henc : toBech32 prog 1 "tb" = some addr)
    (hbytes : ∀ b ∈ prog, b < 256)
    (hpt : isXOnlyPoint prog = true) :
    isValidTaprootAddress addr = true := by
  unfold toBech32 at henc
  rw [if_neg (by norm_num : ¬ (1 : Nat) = 0)] at henc
  rw [Option.map_eq_some'] at henc
  obtain ⟨chars, hchars, haddr⟩ := henc
  subst haddr
  unfold bech32EncodeGen at hchars
  split at hchars
  · cases hchars
  rename_i hlen
  split at hchars
  case isFalse => cases hchars
  rename_i hall
  split at hchars
  · cases hchars
  rename_i chk0 hchk
  simp only [Option.some.injEq] at hchars
  have hchk' : hrpChk ['t', 'b'] = some chk0 := hchk
  have hchk0 : chk0 = 36799106 := by
    rw [hrpChk_tb] at hchk'
    simp only [Option.some.injEq] at hchk'
    exact hchk'.symm
  set tw := toWords prog with htw
  set target := polymodAux (polymodAux chk0 (1 :: tw)) [0, 0, 0, 0, 0, 0] ^^^ bech32mConst
    with htarget
  set W := (1 :: tw) ++ checksumWords target with hW
  have hchars' : chars = 't' :: 'b' :: '1' :: W.map (fun w => bech32Charset.getD w ' ') := by
    rw [← hchars]
    rfl
  set mapped := W.map (fun w => bech32Charset.getD w ' ') with hmapped
  have hW32 : ∀ w ∈ W, w < 32 := by
    intro w hw
    rw [hW] at hw
    rcases List.mem_append.mp hw with h | h
    · have := List.all_eq_true.mp hall w h
      simpa using this
    · exact checksumWords_lt target w h
  have h1notin : '1' ∉ mapped := by
    intro hmem
    obtain ⟨w, hw, hfw⟩ := List.mem_map.mp hmem
    exact getD_ne_one w (hW32 w hw) hfw
  have hlensW : W.length = tw.length + 7 := by
    rw [hW]
    simp [checksumWords]
  have hcharslen : chars.length = tw.length + 10 := by
    rw [hchars']
    simp [hmapped, hlensW]
  have hlow : chars.map asciiLower = chars := by
    rw [hchars']
    simp only [List.map_cons]
    have h1 : asciiLower 't' = 't' := by decide
    have h2 : asciiLower 'b' = 'b' := by decide
    have h3 : asciiLower '1' = '1' := by decide
    rw [h1, h2, h3, hmapped, List.map_map]
    have hmm : List.map (asciiLower ∘ fun w => bech32Charset.getD w ' ') W
        = List.map (fun w => bech32Charset.getD w ' ') W :=
      List.map_congr_left (fun w hw => asciiLower_getD w (hW32 w hw))
    rw [hmm]
  have hsplit : lastIdxOf '1' chars = some 2 := by
    rw [hchars']
    exact lastIdxOf_structure mapped h1notin
  have htake2 : chars.take 2 = ['t', 'b'] := by rw [hchars']; rfl
  have hdrop3 : chars.drop 3 = mapped := by rw [hchars']; rfl
  have hcv : charsVals (chars.drop 3) = some W := by
    rw [hdrop3, hmapped]
    exact charsVals_map W hW32
  have hpolyW : polymodAux chk0 W = bech32mConst := by
    rw [hW, htarget]
    exact checksum_verifies chk0 bech32mConst (1 :: tw)
      (by rw [hchk0]; norm_num)
      (by intro v hv
          have := List.all_eq_true.mp hall v hv
          simpa using this)
      (by norm_num [bech32mConst])
  have h10 : 10 ≤ chars.length := by omega
  have h90 : chars.length ≤ 90 := by
    have hl2 : ("tb".data).length = 2 := rfl
    have hc : (1 :: tw).length = tw.length + 1 := by simp
    omega
  have hWtake : W.take (W.length - 6) = 1 :: tw := by
    have h6 : (checksumWords target).length = 6 := rfl
    have : W.length - 6 = (1 :: tw).length := by
      rw [hW]
      simp [h6]
    rw [this, hW]
    exact take_append_len _ _
  have hdec_m : bech32DecodeGen bech32mConst chars = some (['t', 'b'], 1 :: tw) := by
    rw [decode_forward bech32mConst chars chk0 h10 h90 hlow hsplit htake2 hchk', hcv]
    simp only [hpolyW, if_true, hWtake]
  have hdec_1 : bech32DecodeGen 1 chars = none := by
    rw [decode_forward 1 chars chk0 h10 h90 hlow hsplit htake2 hchk', hcv]
    simp only [hpolyW]
    rw [if_neg (by norm_num [bech32mConst])]
  have hfb : fromBech32 chars = some ⟨1, ['t', 'b'], prog⟩ := by
    unfold fromBech32
    rw [hdec_1, hdec_m]
    simp only [if_neg (by norm_num : ¬ (1 : Nat) = 0)]
    rw [htw, fromWords_toWords prog hbytes]
    rfl
  have hout : toOutputScript chars = some ([OP_1, 32] ++ prog) := by
    unfold toOutputScript
    rw [hfb]
    simp [hpt, isXOnlyPoint_length prog hpt, OP_1]
  have htake4 : chars.take 4 = ['t', 'b', '1', 'p'] := by
    rw [hchars', hmapped, hW]
    rfl
  unfold isValidTaprootAddress
  have hdata : (String.mk chars).data = chars := rfl
  rw [hdata, htake4, if_neg (by simp), hout]

theorem valid_inversion (s : String) (h : isValidTaprootAddress s = true) :
    s.data.take 4 = ['t', 'b', '1', 'p'] ∧
    10 ≤ s.data.length ∧ s.data.length ≤ 90 ∧
    s.data.map asciiLower = s.data ∧
    lastIdxOf '1' s.data = some 2 ∧
    ∃ vals, charsVals (s.data.drop 3) = some vals ∧
      7 ≤ vals.length ∧ (∃ tl, vals = 1 :: tl) ∧
      polymodAux 36799106 vals = bech32mConst := by
  unfold isValidTaprootAddress at h
  split at h
  · cases h
  rename_i htake4'
  have htake4 : s.data.take 4 = ['t', 'b', '1', 'p'] := not_not.mp htake4'
  obtain ⟨r, hr⟩ := take4_cons s.data htake4
  split at h
  case h_2 => cases h
  rename_i out heq_out
  obtain ⟨d, hfb, hhrp⟩ := toOutputScript_inv s.data out heq_out
  obtain ⟨w, hdec⟩ := fromBech32_inv s.data d hfb
  have main : ∀ enc : Nat, bech32DecodeGen enc s.data = some (d.hrPart, w) →
      s.data.map asciiLower = s.data ∧ 8 ≤ s.data.length ∧ s.data.length ≤ 90 ∧
      lastIdxOf '1' s.data = some 2 ∧
      ∃ vals, charsVals (s.data.drop 3) = some vals ∧
        polymodAux 36799106 vals = enc ∧ (∃ tl, vals = 1 :: tl) ∧
        w = vals.take (vals.length - 6) := by
    intro enc hd
    obtain ⟨h8, h90, hcase, split, vals, chk0, hspl, hspl0, hhh, hlen6, hchk,
      hvals, hpoly, hw⟩ := decodeGen_inv enc s.data d.hrPart w hd
    have hlow : s.data.map asciiLower = s.data := by
      rcases hcase with hc | hc
      · exact hc
      · exfalso
        rw [hr] at hc
        simp only [List.map_cons, List.cons.injEq] at hc
        exact absurd hc.1 (by decide)
    rw [hlow] at hspl hhh hvals
    rw [hhrp] at hhh
    have hsplit2 : split = 2 := by
      have hlen2 := congrArg List.length hhh
      simp only [List.length_take, List.length_cons, List.length_nil] at hlen2
      rw [Nat.min_def] at hlen2
      split at hlen2 <;> omega
    subst hsplit2
    have h3 : (2 : Nat) + 1 = 3 := rfl
    rw [h3] at hvals
    have hchk36 : chk0 = 36799106 := by
      rw [hhrp, hrpChk_tb] at hchk
      simp only [Option.some.injEq] at hchk
      exact hchk.symm
    subst hchk36
    have hvcons : ∃ tl, vals = 1 :: tl := by
      rw [hr] at hvals
      have hdrop : ('t' :: 'b' :: '1' :: 'p' :: r).drop 3 = 'p' :: r := rfl
      rw [hdrop] at hvals
      simp only [charsVals] at hvals
      have hp : charsetVal 'p' = some 1 := by decide
      rw [hp] at hvals
      cases hrv : charsVals r with
      | none => rw [hrv] at hvals; cases hvals
      | some tl =>
        rw [hrv] at hvals
        simp only [Option.some.injEq] at hvals
        exact ⟨tl, hvals.symm⟩
    exact ⟨hlow, by omega, by omega, hspl, vals, hvals, hpoly, hvcons, hw⟩
  rcases hdec with ⟨hd1, hhead, hv0⟩ | ⟨hdm, hhead, hv0⟩
  · exfalso
    obtain ⟨_, _, _, _, vals, hvals, _, ⟨tl, hcons⟩, hw⟩ := main 1 hd1
    rw [hw, hcons] at hhead
    cases hn6 : (vals.length - 6) with
    | zero =>
      rw [hcons] at hn6
      rw [hn6] at hhead
      cases hhead
    | succ m =>
      rw [hcons] at hn6
      rw [hn6] at hhead
      simp only [List.take_succ_cons, List.head?_cons, Option.some.injEq] at hhead
      rw [← hhead] at hv0
      cases hv0
  · obtain ⟨hlow, h8, h90, hspl, vals, hvals, hpoly, ⟨tl, hcons⟩, hw⟩ := main bech32mConst hdm
    have hv7 : 7 ≤ vals.length := by
      have hlen : vals.length = s.data.length - 3 := by
        rw [charsVals_length _ _ hvals]
        simp
      by_contra hlt
      push_neg at hlt
      have h6 : vals.length - 6 = 0 := by omega
      rw [hw, h6] at hhead
      simp at hhead
    have h10 : 10 ≤ s.data.length := by
      have hlen : vals.length = s.data.length - 3 := by
        rw [charsVals_length _ _ hvals]
        simp
      omega
    exact ⟨htake4, h10, h90, hlow, hspl, vals, hvals, hv7, ⟨tl, hcons⟩, hpoly⟩

theorem map_getD (f : Char → Char) (l : List Char) (i : Nat) (h : i < l.length) :
    (l.map f).getD i ' ' = f (l.getD i ' ') := by
  rw [List.getD_eq_getElem (l.map f) ' ' (by simpa using h), List.getD_eq_getElem l ' ' h,
    List.getElem_map]

theorem set_getD_self (l : List Char) (i : Nat) (c : Char) (h : i < l.length) :
    (l.set i c).getD i ' ' = c := by
  rw [List.getD_eq_getElem (l.set i c) ' ' (by simpa using h), List.getElem_set, if_pos rfl]

theorem set_getD_ne (l : List Char) (i j : Nat) (c : Char) (hne : i ≠ j)
    (h : j < l.length) : (l.set i c).getD j ' ' = l.getD j ' ' := by
  rw [List.getD_eq_getElem (l.set i c) ' ' (by simpa using h), List.getElem_set,
    if_neg hne, List.getD_eq_getElem l ' ' h]

theorem drop_getD (l : List Char) (n k : Nat) (h : n + k < l.length) :
    (l.drop n).getD k ' ' = l.getD (n + k) ' ' := by
  rw [List.getD_eq_getElem (l.drop n) ' ' (by simp; omega), List.getD_eq_getElem l ' ' h,
    List.getElem_drop]

theorem flip_upper (l : List Char) (i : Nat) (c : Char)
    (h10 : 10 ≤ l.length) (h90 : l.length ≤ 90) (h0 : l.getD 0 ' ' = 't')
    (hi : i < l.length) (hA : asciiLower c ≠ c) (h4 : 4 ≤ i) :
    fromBech32 (l.set i c) = none := by
  have hlen : (l.set i c).length = l.length := List.length_set ..
  have hlnot : (l.set i c).map asciiLower ≠ l.set i c := by
    intro hcontra
    apply hA
    have h1 := congrArg (fun t => t.getD i ' ') hcontra
    simp only at h1
    rw [map_getD asciiLower (l.set i c) i (by omega),
      set_getD_self l i c hi] at h1
    exact h1
  have hunot : (l.set i c).map asciiUpper ≠ l.set i c := by
    intro hcontra
    have h1 := congrArg (fun t => t.getD 0 ' ') hcontra
    simp only at h1
    rw [map_getD asciiUpper (l.set i c) 0 (by omega),
      set_getD_ne l i 0 c (by omega) (by omega), h0] at h1
    exact absurd h1 (by decide)
  unfold fromBech32
  rw [mixed_none 1 (l.set i c) (by omega) (by omega) hlnot hunot,
    mixed_none bech32mConst (l.set i c) (by omega) (by omega) hlnot hunot]

theorem flip_struct (l : List Char) (i : Nat) (c : Char) (r : List Char)
    (hr : l = 't' :: 'b' :: '1' :: 'p' :: r) (h4 : 4 ≤ i) :
    l.set i c = 't' :: 'b' :: '1' :: (('p' :: r).set (i - 3) c) := by
  rw [hr]
  have h3 : i = (i - 3) + 1 + 1 + 1 := by omega
  rw [h3]
  rfl

theorem flip_one (l : List Char) (i : Nat) (r : List Char)
    (hr : l = 't' :: 'b' :: '1' :: 'p' :: r)
    (h10 : 10 ≤ l.length) (h90 : l.length ≤ 90)
    (hlow : l.map asciiLower = l)
    (h4 : 4 ≤ i) (hi : i < l.length) :
    toOutputScript (l.set i '1') = none := by
  cases hto : toOutputScript (l.set i '1') with
  | none => rfl
  | some out =>
    exfalso
    obtain ⟨d, hfb, hhrp⟩ := toOutputScript_inv _ _ hto
    obtain ⟨w, hdec⟩ := fromBech32_inv _ _ hfb
    set l' := l.set i '1' with hl'
    have hlen : l'.length = l.length := List.length_set ..
    have hlow' : l'.map asciiLower = l' := by
      rw [hl', List.map_set, hlow, show asciiLower '1' = '1' from by decide]
    have main : ∀ (enc : Nat) (w' : List Nat),
        bech32DecodeGen enc l' = some (d.hrPart, w') → False := by
      intro enc w' hd'
      obtain ⟨h8, _, _, split, vals, chk0, hspl, _, hhh, _, _, _, _, _⟩ :=
        decodeGen_inv enc l' d.hrPart w' hd'
      rw [hlow'] at hspl hhh
      rw [hhrp] at hhh
      have hsplit2 : split = 2 := by
        have hlen2 := congrArg List.length hhh
        simp only [List.length_take, List.length_cons, List.length_nil] at hlen2
        rw [Nat.min_def] at hlen2
        split at hlen2 <;> omega
      subst hsplit2
      apply no_one_after l' hspl (by omega) i (by omega) (by omega)
      rw [hl']
      exact set_getD_self l i '1' hi
    rcases hdec with ⟨hd1, _, _⟩ | ⟨hdm, _, _⟩
    · exact main 1 w hd1
    · exact main bech32mConst w hdm

theorem flip_no_one (l : List Char) (i : Nat) (c : Char) (r : List Char)
    (hr : l = 't' :: 'b' :: '1' :: 'p' :: r)
    (hsplit : lastIdxOf '1' l = some 2) (h10 : 10 ≤ l.length)
    (h4 : 4 ≤ i) (hi : i < l.length) (hc1 : c ≠ '1') :
    '1' ∉ ('p' :: r).set (i - 3) c := by
  have hlr : l.length = r.length + 4 := by rw [hr]; simp
  intro hmem
  obtain ⟨⟨k, hk⟩, hget⟩ := List.mem_iff_get.mp hmem
  have hk' : k < ('p' :: r).length := by simpa using hk
  have hgetD : (('p' :: r).set (i - 3) c).getD k ' ' = '1' := by
    rw [List.getD_eq_getElem _ ' ' hk]
    exact hget
  by_cases hke : i - 3 = k
  · rw [← hke, set_getD_self _ _ _ (by simp; omega)] at hgetD
    exact hc1 hgetD
  · rw [set_getD_ne _ _ _ _ hke hk'] at hgetD
    have hdrop : l.drop 3 = 'p' :: r := by rw [hr]; rfl
    have hg : l.getD (3 + k) ' ' = '1' := by
      rw [← drop_getD l 3 k (by simp at hk'; omega), hdrop]
      exact hgetD
    exact no_one_after l hsplit (by omega) (3 + k) (by omega) (by simp at hk'; omega) hg

theorem flip_nochar (l : List Char) (i : Nat) (c : Char) (r : List Char)
    (hr : l = 't' :: 'b' :: '1' :: 'p' :: r)
    (h10 : 10 ≤ l.length) (h90 : l.length ≤ 90)
    (hlow : l.map asciiLower = l) (hsplit : lastIdxOf '1' l = some 2)
    (h4 : 4 ≤ i) (hi : i < l.length)
    (hAc : asciiLower c = c) (hc1 : c ≠ '1') (hC : charsetVal c = none) :
    toOutputScript (l.set i c) = none := by
  set l' := l.set i c with hl'
  have hlen : l'.length = l.length := List.length_set ..
  have hstruct : l' = 't' :: 'b' :: '1' :: (('p' :: r).set (i - 3) c) :=
    flip_struct l i c r hr h4
  have hlow' : l'.map asciiLower = l' := by rw [hl', List.map_set, hlow, hAc]
  have hsplit' : lastIdxOf '1' l' = some 2 := by
    rw [hstruct]
    exact lastIdxOf_structure _ (flip_no_one l i c r hr hsplit h10 h4 hi hc1)
  have htb2 : l'.take 2 = ['t', 'b'] := by rw [hstruct]; rfl
  have hds : l'.drop 3 = ('p' :: r).set (i - 3) c := by rw [hstruct]; rfl
  have hlr : l.length = r.length + 4 := by rw [hr]; simp
  have hcv : charsVals (l'.drop 3) = none := by
    rw [hds]
    exact charsVals_set_none _ (i - 3) c hC (by simp; omega)
  have hdec : ∀ enc : Nat, bech32DecodeGen enc l' = none := by
    intro enc
    rw [decode_forward enc l' 36799106 (by omega) (by omega) hlow' hsplit' htb2 hrpChk_tb,
      hcv]
  have hfb : fromBech32 l' = none := by
    unfold fromBech32
    rw [hdec 1, hdec bech32mConst]
  unfold toOutputScript
  rw [hfb]

theorem flip_char (l : List Char) (i : Nat) (c : Char) (r : List Char) (vals tl : List Nat)
    (vc : Nat)
    (hr : l = 't' :: 'b' :: '1' :: 'p' :: r)
    (h10 : 10 ≤ l.length) (h90 : l.length ≤ 90)
    (hlow : l.map asciiLower = l) (hsplit : lastIdxOf '1' l = some 2)
    (hvals : charsVals (l.drop 3) = some vals)
    (hv7 : 7 ≤ vals.length) (hcons : vals = 1 :: tl)
    (hpoly : polymodAux 36799106 vals = bech32mConst)
    (h4 : 4 ≤ i) (hi : i < l.length)
    (hAc : asciiLower c = c) (hD : charsetVal c = some vc)
    (hne : c ≠ l.getD i ' ') :
    toOutputScript (l.set i c) = none := by
  obtain ⟨hvc32, hcchar⟩ := charsetVal_some_inv c vc hD
  have hc1 : c ≠ '1' := by rw [← hcchar]; exact getD_ne_one vc hvc32
  set l' := l.set i c with hl'
  have hlen : l'.length = l.length := List.length_set ..
  have hstruct : l' = 't' :: 'b' :: '1' :: (('p' :: r).set (i - 3) c) :=
    flip_struct l i c r hr h4
  have hlow' : l'.map asciiLower = l' := by rw [hl', List.map_set, hlow, hAc]
  have hsplit' : lastIdxOf '1' l' = some 2 := by
    rw [hstruct]
    exact lastIdxOf_structure _ (flip_no_one l i c r hr hsplit h10 h4 hi hc1)
  have htb2 : l'.take 2 = ['t', 'b'] := by rw [hstruct]; rfl
  have hds : l'.drop 3 = ('p' :: r).set (i - 3) c := by rw [hstruct]; rfl
  have hlr : l.length = r.length + 4 := by rw [hr]; simp
  have hdropl : l.drop 3 = 'p' :: r := by rw [hr]; rfl
  have hvals' : charsVals ('p' :: r) = some vals := by rw [← hdropl]; exact hvals
  have hvlen2 : vals.length = r.length + 1 := by
    rw [charsVals_length _ _ hvals']
    simp
  have hklt : i - 3 < ('p' :: r).length := by simp; omega
  have hk3 : i - 3 < vals.length := by omega
  have hcv : charsVals (l'.drop 3) = some (vals.set (i - 3) vc) := by
    rw [hds]
    exact charsVals_set_some _ vals (i - 3) c vc hvals' hD
  have hov : charsetVal (('p' :: r).getD (i - 3) ' ') = some (vals.getD (i - 3) 0) :=
    charsVals_getD _ vals (i - 3) hvals' hklt
  have hoc : ('p' :: r).getD (i - 3) ' ' = l.getD i ' ' := by
    rw [← hdropl, drop_getD l 3 (i - 3) (by omega)]
    congr 1
    omega
  have hov32 : vals.getD (i - 3) 0 < 32 := (charsetVal_some_inv _ _ hov).1
  have hovne : vals.getD (i - 3) 0 ≠ vc := by
    intro hcontra
    apply hne
    have h1 := (charsetVal_some_inv _ _ hov).2
    rw [hcontra] at h1
    rw [← hcchar, h1, hoc]
  have hdelta0 : vals.getD (i - 3) 0 ^^^ vc ≠ 0 := fun h => hovne (Nat.xor_eq_zero.mp h)
  have hdeltalt : vals.getD (i - 3) 0 ^^^ vc < 2 ^ 30 :=
    lt_of_lt_of_le
      (Nat.xor_lt_two_pow (n := 5) (by omega) (by omega)) (by norm_num)
  have hpoly' : polymodAux 36799106 (vals.set (i - 3) vc) =
      bech32mConst ^^^ stepIter (vals.length - ((i - 3) + 1)) (vals.getD (i - 3) 0 ^^^ vc) := by
    rw [polymod_set 36799106 vals (i - 3) vc hk3, hpoly]
  have hstep := stepIter_ne_zero (vals.length - ((i - 3) + 1)) (vals.getD (i - 3) 0 ^^^ vc)
    hdeltalt hdelta0
  have hne_m : polymodAux 36799106 (vals.set (i - 3) vc) ≠ bech32mConst := by
    rw [hpoly']
    intro hcontra
    apply hstep.1
    have h1 : bech32mConst ^^^ (bech32mConst ^^^
        stepIter (vals.length - (i - 3 + 1)) (vals.getD (i - 3) 0 ^^^ vc)) = 0 := by
      rw [hcontra, Nat.xor_self]
    rwa [← Nat.xor_assoc, Nat.xor_self, Nat.zero_xor] at h1
  have hdec_m : bech32DecodeGen bech32mConst l' = none := by
    rw [decode_forward bech32mConst l' 36799106 (by omega) (by omega) hlow' hsplit' htb2
      hrpChk_tb, hcv]
    exact if_neg hne_m
  have hdec_1 : bech32DecodeGen 1 l' =
      (if polymodAux 36799106 (vals.set (i - 3) vc) = 1
       then some (['t', 'b'], (vals.set (i - 3) vc).take ((vals.set (i - 3) vc).length - 6))
       else none) := by
    rw [decode_forward 1 l' 36799106 (by omega) (by omega) hlow' hsplit' htb2 hrpChk_tb,
      hcv]
  have hfb : fromBech32 l' = none := by
    unfold fromBech32
    rw [hdec_1, hdec_m]
    by_cases hP1 : polymodAux 36799106 (vals.set (i - 3) vc) = 1
    · rw [if_pos hP1]
      have hset1 : vals.set (i - 3) vc = 1 :: tl.set (i - 4) vc := by
        rw [hcons]
        have h34 : i - 3 = (i - 4) + 1 := by omega
        rw [h34]
        rfl
      have hlenset : (vals.set (i - 3) vc).length = vals.length := List.length_set ..
      have hn6 : (vals.set (i - 3) vc).length - 6 = (vals.length - 7) + 1 := by
        rw [hlenset]
        omega
      rw [hn6, hset1, List.take_succ_cons]
      simp
    · rw [if_neg hP1]
  unfold toOutputScript
  rw [hfb]

/-- C5: `isValidTaprootAddress` accepts every address produced by this system's
encoding — `createTaprootTrust` or `createSimpleTaprootAddress` on the test
network, whose addresses arise from `toBech32` of a 32-byte x-only program —
and rejects any string that does not start with the lowercase prefix `tb1p` as
well as any single-character corruption of a valid address. -/
theorem claim_C5 :
    (∀ owner heir oracle hours ct t prog,
       createTaprootTrust owner heir oracle hours ct = .ok t →
       toBech32 prog 1 "tb" = some t.address →
       (∀ b ∈ prog, b < 256) → isXOnlyPoint prog = true →
       isValidTaprootAddress t.address = true) ∧
    (∀ owner s prog,
       createSimpleTaprootAddress owner = .ok s →
       toBech32 prog 1 "tb" = some s.address →
       (∀ b ∈ prog, b < 256) → isXOnlyPoint prog = true →
       isValidTaprootAddress s.address = true) ∧
    (∀ s : String, s.data.take 4 ≠ ['t', 'b', '1', 'p'] →
       isValidTaprootAddress s = false) ∧
    (∀ (s : String) (i : Nat) (hi : i < s.data.length) (c : Char),
       isValidTaprootAddress s = true → c ≠ s.data.get ⟨i, hi⟩ →
       isValidTaprootAddress (String.mk (s.data.set i c)) = false) := by
  refine ⟨?_, ?_, ?_, ?_⟩
  · intro owner heir oracle hours ct t prog _ henc hb hpt
    exact toBech32_valid prog t.address henc hb hpt
  · intro owner s prog _ henc hb hpt
    exact toBech32_valid prog s.address henc hb hpt
  · intro s hs
    unfold isValidTaprootAddress
    rw [if_pos hs]
  · intro s i hi c hvalid hne
    obtain ⟨htake4, h10, h90, hlow, hsplit, vals, hvals, hv7, ⟨tl, hcons⟩, hpoly⟩ :=
      valid_inversion s hvalid
    obtain ⟨r, hr⟩ := take4_cons s.data htake4
    have hgg : s.data.getD i ' ' = s.data.get ⟨i, hi⟩ := by
      rw [List.getD_eq_getElem s.data ' ' hi]
      rfl
    have hne' : c ≠ s.data.getD i ' ' := by rw [hgg]; exact hne
    by_cases hi4 : i < 4
    · have hget4 : s.data.getD i ' ' = (['t', 'b', '1', 'p'] : List Char).getD i ' ' := by
        rw [hr]
        interval_cases i <;> rfl
      have hne4 : (s.data.set i c).take 4 ≠ ['t', 'b', '1', 'p'] := by
        rw [listSetTake, htake4]
        intro hcontra
        apply hne'
        rw [hget4]
        have hcg := congrArg (fun t => t.getD i ' ') hcontra
        simp only at hcg
        rw [set_getD_self _ _ _ (by simp; omega)] at hcg
        exact hcg
      unfold isValidTaprootAddress
      rw [show (String.mk (s.data.set i c)).data = s.data.set i c from rfl, if_pos hne4]
    · push_neg at hi4
      have htake4' : (s.data.set i c).take 4 = ['t', 'b', '1', 'p'] := by
        rw [listSetTake, List.set_eq_of_length_le (by rw [List.length_take]; omega), htake4]
      suffices hnone : toOutputScript (s.data.set i c) = none by
        unfold isValidTaprootAddress
        rw [show (String.mk (s.data.set i c)).data = s.data.set i c from rfl,
          htake4', if_neg (by simp), hnone]
      by_cases hA : asciiLower c = c
      · by_cases hc1 : c = '1'
        · rw [hc1]
          exact flip_one s.data i r hr h10 h90 hlow hi4 hi
        · cases hD : charsetVal c with
          | none => exact flip_nochar s.data i c r hr h10 h90 hlow hsplit hi4 hi hA hc1 hD
          | some vc =>
            exact flip_char s.data i c r vals tl vc hr h10 h90 hlow hsplit hvals hv7 hcons
              hpoly hi4 hi hA hD hne'
      · have h0 : s.data.getD 0 ' ' = 't' := by rw [hr]; rfl
        have hfb := flip_upper s.data i c h10 h90 h0 hi hA hi4
        unfold toOutputScript
        rw [hfb]

theorem claim_C5_witness :
    isValidTaprootAddress
      "tb1pz8h5l7k6jgutes8m37ccp26pdsjcn7ld5h4pawqe89hw78srachsytdqzd" = true ∧
    isValidTaprootAddress
      "tb1pmfr3p9j00pfxjh0zmgp99y8zftmd3s5pmedqhyptwy6lm87hf5ssk79hv2" = true ∧
    isValidTaprootAddress "hello" = false ∧
    isValidTaprootAddress (String.mk
      ("tb1pz8h5l7k6jgutes8m37ccp26pdsjcn7ld5h4pawqe89hw78srachsytdqzd".data.set 10 'q'))
      = false := by
  have h1 : isValidTaprootAddress
      "tb1pz8h5l7k6jgutes8m37ccp26pdsjcn7ld5h4pawqe89hw78srachsytdqzd" = true :=
    claim_C5.1 demoOwnerKey demoHeirKey demoOracleKey 1 499996399
      { address := "tb1pz8h5l7k6jgutes8m37ccp26pdsjcn7ld5h4pawqe89hw78srachsytdqzd"
        internalPubkey := "79be667ef9dcbbac55a06295ce870b07029bfcdb2dce28d959f2815b16f81798"
        heirPubkey := "c6047f9441ed7d6d3045406e95c07cd85c778e4b8cef3ca7abac09b95c709ee5"
        oraclePubkey := "f9308a019258c31049344f85f89d5229b531c845836f99b08601f113bce036f9"
        locktime := 499999999
        scriptTimelock :=
          "04ff64cd1db17520c6047f9441ed7d6d3045406e95c07cd85c778e4b8cef3ca7abac09b95c709ee5ac"
        scriptOracle :=
          "20f9308a019258c31049344f85f89d5229b531c845836f99b08601f113bce036f9ad20c6047f9441ed7d6d3045406e95c07cd85c778e4b8cef3ca7abac09b95c709ee5ac"
        output := "512011ef4ffada9238bcc0fb8fb180ab416c2589fbeda5ea1eb819396eef1e03ee2f" }
      [0x11, 0xef, 0x4f, 0xfa, 0xda, 0x92, 0x38, 0xbc, 0xc0, 0xfb, 0x8f, 0xb1, 0x80, 0xab,
       0x41, 0x6c, 0x25, 0x89, 0xfb, 0xed, 0xa5, 0xea, 0x1e, 0xb8, 0x19, 0x39, 0x6e, 0xef,
       0x1e, 0x03, 0xee, 0x2f]
      (by rfl) (by rfl) (by decide) (by rfl)
  refine ⟨h1, ?_, ?_, ?_⟩
  · exact claim_C5.2.1 demoOwnerKey
      { address := "tb1pmfr3p9j00pfxjh0zmgp99y8zftmd3s5pmedqhyptwy6lm87hf5ssk79hv2"
        publicKey := "79be667ef9dcbbac55a06295ce870b07029bfcdb2dce28d959f2815b16f81798"
        output := "5120da4710964f7852695de2da025290e24af6d8c281de5a0b902b7135fd9fd74d21" }
      [0xda, 0x47, 0x10, 0x96, 0x4f, 0x78, 0x52, 0x69, 0x5d, 0xe2, 0xda, 0x02, 0x52, 0x90,
       0xe2, 0x4a, 0xf6, 0xd8, 0xc2, 0x81, 0xde, 0x5a, 0x0b, 0x90, 0x2b, 0x71, 0x35, 0xfd,
       0x9f, 0xd7, 0x4d, 0x21]
      (by rfl) (by rfl) (by decide) (by rfl)
  · exact claim_C5.2.2.1 "hello" (by decide)
  · exact claim_C5.2.2.2
      "tb1pz8h5l7k6jgutes8m37ccp26pdsjcn7ld5h4pawqe89hw78srachsytdqzd" 10 (by decide) 'q'
      h1 (by decide)

theorem eInv_eq_inv (n : ℕ) [Fact (Nat.Prime n)] (x : ZMod n) (hx : x ≠ 0) :
    eInv n x = x⁻¹ := by
  have hn : 2 ≤ n := (Fact.out : Nat.Prime n).two_le
  have h1 : x ^ (n - 1) = 1 := ZMod.pow_card_sub_one_eq_one hx
  have h2 : n - 1 = (n - 2) + 1 := by omega
  rw [h2, pow_succ] at h1
  exact eq_inv_of_mul_eq_one_left h1

theorem natToBytesBE_length (len n : Nat) : (natToBytesBE len n).length = len := by
  simp [natToBytesBE]

theorem natToBytesBE_lt (len n : Nat) : ∀ b ∈ natToBytesBE len n, b < 256 := by
  intro b hb
  simp only [natToBytesBE, List.mem_map] at hb
  obtain ⟨i, _, hi⟩ := hb
  rw [← hi]
  exact Nat.mod_lt _ (by norm_num)

theorem natToBytesBE_succ (len n : Nat) :
    natToBytesBE (len + 1) n = (n / 2 ^ (8 * len) % 256) :: natToBytesBE len n := by
  simp only [natToBytesBE, List.range_succ_eq_map, List.map_cons, List.map_map]
  congr 1
  apply List.map_congr_left
  intro i _
  simp only [Function.comp]
  congr 3
  omega

theorem beNat_aux : ∀ (len n acc : Nat),
    (natToBytesBE len n).foldl (fun acc b => acc * 256 + b) acc
      = acc * 2 ^ (8 * len) + n % 2 ^ (8 * len) := by
  intro len
  induction len with
  | zero => intro n acc; simp [natToBytesBE, Nat.mod_one]
  | succ len ih =>
    intro n acc
    rw [natToBytesBE_succ, List.foldl_cons, ih]
    have hpow : 2 ^ (8 * (len + 1)) = 2 ^ (8 * len) * 256 := by
      rw [show 8 * (len + 1) = 8 * len + 8 from by omega, pow_add]
      norm_num
    rw [hpow, Nat.mod_mul]
    ring

theorem beNat_natToBytesBE (len n : Nat) (h : n < 2 ^ (8 * len)) :
    beNat (natToBytesBE len n) = n := by
  unfold beNat
  rw [beNat_aux len n 0, Nat.zero_mul, Nat.zero_add, Nat.mod_eq_of_lt h]

theorem hexDigit_roundtrip : ∀ v : Nat, v < 16 → hexDigitVal (hexDigit v) = some v := by
  decide

theorem jsBufferFromHex_bytesToHex : ∀ (bs : List Nat), (∀ b ∈ bs, b < 256) →
    jsBufferFromHex (bytesToHex bs).data = bs := by
  intro bs
  induction bs with
  | nil => intro _; rfl
  | cons b tl ih =>
    intro h
    have hb : b < 256 := h b (List.mem_cons_self _ _)
    have htl := ih (fun x hx => h x (List.mem_cons_of_mem _ hx))
    have hdata : (bytesToHex (b :: tl)).data
        = hexDigit (b / 16 % 16) :: hexDigit (b % 16) :: (bytesToHex tl).data := by
      simp [bytesToHex, byteToHex]
    rw [hdata]
    simp only [jsBufferFromHex,
      hexDigit_roundtrip (b / 16 % 16) (Nat.mod_lt _ (by norm_num)),
      hexDigit_roundtrip (b % 16) (Nat.mod_lt _ (by norm_num)), htl]
    have : 16 * (b / 16 % 16) + b % 16 = b := by omega
    rw [this]

theorem hexDigitVal_lt (c : Char) (v : Nat) (h : hexDigitVal c = some v) : v < 16 := by
  unfold hexDigitVal at h
  split at h
  · rename_i hc
    simp only [Option.some.injEq] at h
    omega
  split at h
  · rename_i hc
    simp only [Option.some.injEq] at h
    omega
  split at h
  · rename_i hc
    simp only [Option.some.injEq] at h
    omega
  · cases h

theorem jsBufferFromHex_lt_aux : ∀ (k : Nat) (l : List Char), l.length ≤ k →
    ∀ b ∈ jsBufferFromHex l, b < 256 := by
  intro k
  induction k with
  | zero =>
    intro l hl b hb
    cases l with
    | nil => simp [jsBufferFromHex] at hb
    | cons => simp at hl
  | succ k ih =>
    intro l hl b hb
    match l with
    | [] => simp [jsBufferFromHex] at hb
    | [c] => simp [jsBufferFromHex] at hb
    | c1 :: c2 :: rest =>
      simp only [jsBufferFromHex] at hb
      cases h1 : hexDigitVal c1 with
      | none => rw [h1] at hb; simp at hb
      | some hv =>
        cases h2 : hexDigitVal c2 with
        | none => rw [h1, h2] at hb; simp at hb
        | some lv =>
          rw [h1, h2] at hb
          simp only [List.mem_cons] at hb
          rcases hb with hb | hb
          · have hb1 := hexDigitVal_lt c1 hv h1
            have hb2 := hexDigitVal_lt c2 lv h2
            omega
          · exact ih rest (by simp at hl; omega) b hb

theorem jsBufferFromHex_lt (l : List Char) : ∀ b ∈ jsBufferFromHex l, b < 256 :=
  jsBufferFromHex_lt_aux l.length l (le_refl _)

theorem oracle_equation (C : OracleCurve) [Fact (Nat.Prime C.p)] (x y : ZMod C.p) :
    (oracleW C).Equation x y ↔ y ^ 2 = x ^ 3 + (C.b : ZMod C.p) := by
  rw [WeierstrassCurve.Affine.equation_iff]
  simp [oracleW]

theorem oracle_negY (C : OracleCurve) [Fact (Nat.Prime C.p)] (x y : ZMod C.p) :
    (oracleW C).negY x y = -y := by
  simp [WeierstrassCurve.Affine.negY, oracleW]

theorem two_ne_zero_zmod (p : ℕ) [Fact (Nat.Prime p)] (hp2 : p % 2 = 1) :
    (2 : ZMod p) ≠ 0 := by
  intro hcon
  have h2 : ((2 : ℕ) : ZMod p) = 0 := by exact_mod_cast hcon
  rw [ZMod.natCast_zmod_eq_zero_iff_dvd] at h2
  have hle := Nat.le_of_dvd (by norm_num) h2
  have hge := (Fact.out : Nat.Prime p).two_le
  omega

theorem oracle_nonsingular (C : OracleCurve) [Fact (Nat.Prime C.p)] (x y : ZMod C.p)
    (hp2 : C.p % 2 = 1)
    (heq : y ^ 2 = x ^ 3 + (C.b : ZMod C.p)) (hy : y ≠ 0) :
    (oracleW C).Nonsingular x y := by
  rw [WeierstrassCurve.Affine.nonsingular_iff]
  refine ⟨(oracle_equation C x y).mpr heq, Or.inr ?_⟩
  show y ≠ -y - (oracleW C).a₁ * x - (oracleW C).a₃
  have ha : (oracleW C).a₁ = 0 ∧ (oracleW C).a₃ = 0 := ⟨rfl, rfl⟩
  rw [ha.1, ha.2]
  intro hcon
  have h2y : 2 * y = 0 := by
    rw [two_mul]
    nth_rewrite 1 [hcon]
    ring
  rcases mul_eq_zero.mp h2y with h | h
  · exact two_ne_zero_zmod C.p hp2 h
  · exact hy h

theorem ptoE_zero (C : OracleCurve) [Fact (Nat.Prime C.p)] :
    ptoE C 0 = none := rfl

theorem ptoE_neg (C : OracleCurve) [Fact (Nat.Prime C.p)] (P : (oracleW C).Point) :
    ptoE C (-P) = Option.map (fun q => (q.1, -q.2)) (ptoE C P) := by
  cases P with
  | zero => rfl
  | @some x y h =>
    rw [WeierstrassCurve.Affine.Point.neg_some]
    show some (x, (oracleW C).negY x y) = some (x, -y)
    rw [oracle_negY]

theorem ptoE_add (C : OracleCurve) [Fact (Nat.Prime C.p)] (hp2 : C.p % 2 = 1)
    (P Q : (oracleW C).Point) :
    ptoE C (P + Q) = eAdd C.p (ptoE C P) (ptoE C Q) := by
  cases P with
  | zero =>
    rw [show (WeierstrassCurve.Affine.Point.zero : (oracleW C).Point) = 0 from rfl, zero_add]
    cases Q <;> rfl
  | @some x₁ y₁ h₁ =>
    cases Q with
    | zero =>
      rw [show (WeierstrassCurve.Affine.Point.zero : (oracleW C).Point) = 0 from rfl, add_zero]
      rfl
    | @some x₂ y₂ h₂ =>
      by_cases hxy : x₁ = x₂ ∧ y₁ = (oracleW C).negY x₂ y₂
      · rw [WeierstrassCurve.Affine.Point.add_of_Y_eq hxy.1 hxy.2]
        show (none : EPoint C.p) = eAdd C.p (some (x₁, y₁)) (some (x₂, y₂))
        simp only [eAdd]
        rw [if_pos ⟨hxy.1, by rw [hxy.2, oracle_negY]⟩]
      · have hxy' : x₁ = x₂ → y₁ ≠ (oracleW C).negY x₂ y₂ := fun hx hy => hxy ⟨hx, hy⟩
        rw [WeierstrassCurve.Affine.Point.add_of_imp hxy']
        have hL : (oracleW C).slope x₁ x₂ y₁ y₂ =
            (if x₁ = x₂ then 3 * x₁ ^ 2 * eInv C.p (2 * y₁)
             else (y₁ - y₂) * eInv C.p (x₁ - x₂)) := by
          by_cases hx : x₁ = x₂
          · have hyy := hxy' hx
            have hy2 : y₁ = y₂ := by
              rcases WeierstrassCurve.Affine.Y_eq_of_X_eq h₁.1 h₂.1 hx with h | h
              · exact h
              · exact absurd h hyy
            have h2y : 2 * y₁ ≠ 0 := by
              intro hcon
              rcases mul_eq_zero.mp hcon with h | h
              · exact two_ne_zero_zmod C.p hp2 h
              · apply hyy
                rw [oracle_negY, ← hy2, h]
                simp
            rw [WeierstrassCurve.Affine.slope_of_Y_ne hx hyy, if_pos hx, oracle_negY,
              eInv_eq_inv C.p (2 * y₁) h2y]
            have hden : y₁ - -y₁ = 2 * y₁ := by ring
            rw [hden, div_eq_mul_inv]
            simp only [oracleW]
            ring
          · rw [WeierstrassCurve.Affine.slope_of_X_ne hx, if_neg hx,
              eInv_eq_inv C.p (x₁ - x₂) (sub_ne_zero.mpr hx), div_eq_mul_inv]
        show some ((oracleW C).addX x₁ x₂ ((oracleW C).slope x₁ x₂ y₁ y₂),
            (oracleW C).addY x₁ x₂ y₁ ((oracleW C).slope x₁ x₂ y₁ y₂))
          = eAdd C.p (some (x₁, y₁)) (some (x₂, y₂))
        simp only [eAdd]
        rw [if_neg (fun hc => hxy ⟨hc.1, by rw [oracle_negY]; exact hc.2⟩)]
        simp only [Option.some.injEq, Prod.mk.injEq]
        constructor
        · rw [hL]
          simp only [WeierstrassCurve.Affine.addX, oracleW]
          ring
        · rw [hL]
          simp only [WeierstrassCurve.Affine.addY, WeierstrassCurve.Affine.negAddY,
            WeierstrassCurve.Affine.negY, WeierstrassCurve.Affine.addX, oracleW]
          ring

theorem ptoE_smul (C : OracleCurve) [Fact (Nat.Prime C.p)] (hp2 : C.p % 2 = 1)
    (k : ℕ) (P : (oracleW C).Point) :
    ptoE C (k • P) = eMul C.p k (ptoE C P) := by
  induction k with
  | zero => rw [zero_nsmul]; rfl
  | succ k ih =>
    rw [succ_nsmul' P k, ptoE_add C hp2, ih]
    rfl

theorem smul_congr_mod (n : ℕ) [NeZero n] {M : Type} [AddCommGroup M] (Pg : M)
    (hord : n • Pg = 0) (m m' : ℕ) (h : (m : ZMod n) = (m' : ZMod n)) :
    m • Pg = m' • Pg := by
  have hmod : m % n = m' % n := (ZMod.natCast_eq_natCast_iff m m' n).mp h
  have key : ∀ a : ℕ, a • Pg = (a % n) • Pg := by
    intro a
    conv_lhs => rw [← Nat.div_add_mod a n]
    rw [add_nsmul, mul_nsmul Pg n (a / n), hord, smul_zero, zero_add]
  rw [key m, key m', hmod]

theorem sqrt_pick (p : ℕ) [Fact (Nat.Prime p)] (hp4 : p % 4 = 3) (y y0 : ZMod p)
    (hsq : y0 ^ 2 = y ^ 2) (hb : Nat) (hh : hb = if y.val % 2 = 0 then 2 else 3) :
    (if (y0.val % 2 = 0 ↔ hb = 2) then y0 else -y0) = y := by
  haveI : NeZero p := ⟨by have := (Fact.out : Nat.Prime p).two_le; omega⟩
  have hor : y0 = y ∨ y0 = -y := by
    rw [pow_two, pow_two] at hsq
    exact mul_self_eq_mul_self_iff.mp hsq
  by_cases hy0 : y = 0
  · have hz : y0 = 0 := by
      rcases hor with h | h
      · rw [h, hy0]
      · rw [h, hy0, neg_zero]
    rw [hz, hy0]
    have hcond : ((0 : ZMod p).val % 2 = 0 ↔ hb = 2) := by
      rw [hh, hy0]
      simp [ZMod.val_zero]
    rw [if_pos hcond]
  · have hodd : p % 2 = 1 := by omega
    have hvy : (-y).val = p - y.val := by rw [ZMod.neg_val, if_neg hy0]
    have hylt : y.val < p := ZMod.val_lt y
    have hyne0 : y.val ≠ 0 := fun hcon => hy0 ((ZMod.val_eq_zero y).mp hcon)
    rcases hor with h | h
    · have hcond : (y0.val % 2 = 0 ↔ hb = 2) := by
        rw [h, hh]
        by_cases hpar : y.val % 2 = 0
        · simp [hpar]
        · simp [hpar]
      rw [if_pos hcond, h]
    · by_cases hyy : -y = y
      · rw [h, hyy]
        split
        · rfl
        · exact hyy
      · have hval : y0.val = p - y.val := by rw [h, hvy]
        have hcond : ¬(y0.val % 2 = 0 ↔ hb = 2) := by
          rw [hval, hh]
          by_cases hpar : y.val % 2 = 0
          · rw [if_pos hpar]
            simp only [iff_true]
            omega
          · rw [if_neg hpar]
            simp only [show (3 : Nat) ≠ 2 from by omega, iff_false, not_not]
            omega
        rw [if_neg hcond, h, neg_neg]

theorem decompress_compress (C : OracleCurve) [Fact (Nat.Prime C.p)]
    (hp4 : C.p % 4 = 3) (hp256 : C.p < 2 ^ 256)
    (x y : ZMod C.p) (heq : y ^ 2 = x ^ 3 + (C.b : ZMod C.p)) :
    decompressPoint C (compressPoint C (x, y)) = some (x, y) := by
  haveI : NeZero C.p := ⟨by have := (Fact.out : Nat.Prime C.p).two_le; omega⟩
  have hxlt : x.val < C.p := ZMod.val_lt x
  have hxval : beNat (natToBytesBE 32 x.val) = x.val :=
    beNat_natToBytesBE 32 x.val (by norm_num; omega)
  have hxcast : ((x.val : ℕ) : ZMod C.p) = x := ZMod.natCast_zmod_val x
  unfold compressPoint decompressPoint
  set hb := (if (x, y).2.val % 2 = 0 then 2 else 3) with hhb
  show (if (natToBytesBE 32 (x, y).1.val).length = 32 ∧ (hb = 2 ∨ hb = 3) then
      let xv := beNat (natToBytesBE 32 (x, y).1.val)
      if xv < C.p then
        let x : ZMod C.p := (xv : ZMod C.p)
        let c := x ^ 3 + (C.b : ZMod C.p)
        let y0 := c ^ ((C.p + 1) / 4)
        if y0 ^ 2 = c then some (x, if y0.val % 2 = 0 ↔ hb = 2 then y0 else -y0) else none
      else none
    else none) = some (x, y)
  rw [if_pos ⟨natToBytesBE_length 32 x.val, by rw [hhb]; split <;> simp⟩]
  simp only [hxval]
  rw [if_pos hxlt]
  simp only [hxcast]
  have hy0sq : ((x ^ 3 + (C.b : ZMod C.p)) ^ ((C.p + 1) / 4)) ^ 2
      = x ^ 3 + (C.b : ZMod C.p) := by
    rw [← heq, ← pow_mul, ← pow_mul]
    by_cases hy0 : y = 0
    · have he2 := (Fact.out : Nat.Prime C.p).two_le
      rw [hy0, zero_pow (by omega), zero_pow (by omega)]
    · rw [show 2 * ((C.p + 1) / 4 * 2) = (C.p - 1) + 2 from by omega, pow_add,
        ZMod.pow_card_sub_one_eq_one hy0, one_mul]
  rw [if_pos hy0sq]
  simp only [Option.some.injEq, Prod.mk.injEq]
  refine ⟨trivial, ?_⟩
  exact sqrt_pick C.p hp4 y ((x ^ 3 + (C.b : ZMod C.p)) ^ ((C.p + 1) / 4))
    (by rw [hy0sq, heq]) hb hhb

theorem jsb_length : ∀ (n : Nat) (l : List Char), l.length = 2 * n →
    (∀ c ∈ l, (hexDigitVal c).isSome) → (jsBufferFromHex l).length = n := by
  intro n
  induction n with
  | zero =>
    intro l hl _
    cases l with
    | nil => rfl
    | cons => simp at hl
  | succ n ih =>
    intro l hl hhex
    match l with
    | [] => simp at hl
    | [c] => simp at hl; omega
    | c1 :: c2 :: rest =>
      have h1 : (hexDigitVal c1).isSome := hhex c1 (by simp)
      have h2 : (hexDigitVal c2).isSome := hhex c2 (by simp)
      cases hv1 : hexDigitVal c1 with
      | none => rw [hv1] at h1; cases h1
      | some a =>
        cases hv2 : hexDigitVal c2 with
        | none => rw [hv2] at h2; cases h2
        | some b =>
          simp only [jsBufferFromHex, hv1, hv2, List.length_cons]
          rw [ih rest (by simp at hl; omega)
            (fun c hc => hhex c (by simp [hc]))]

theorem natToHexAux_hexchars : ∀ (fuel n : Nat), ∀ c ∈ natToHexAux fuel n,
    (hexDigitVal c).isSome := by
  intro fuel
  induction fuel with
  | zero => intro n c hc; simp [natToHexAux] at hc
  | succ fuel ih =>
    intro n c hc
    cases n with
    | zero => simp [natToHexAux] at hc
    | succ m =>
      simp only [natToHexAux] at hc
      rcases List.mem_append.mp hc with h | h
      · exact ih _ c h
      · simp only [List.mem_singleton] at h
        rw [h, hexDigit_roundtrip _ (Nat.mod_lt _ (by norm_num))]
        rfl

theorem mockSha256_hexchars (message : String) :
    ∀ c ∈ (MockOracle.sha256 message).data, (hexDigitVal c).isSome := by
  intro c hc
  unfold MockOracle.sha256 padStartZero at hc
  rw [String.data_append] at hc
  rcases List.mem_append.mp hc with h | h
  · have : c = '0' := by
      have := List.eq_of_mem_replicate (by simpa using h)
      exact this
    rw [this]
    rfl
  · unfold natToHex at h
    split at h
    · simp only at h
      rcases List.mem_singleton.mp (by simpa using h) with rfl
      rfl
    · exact natToHexAux_hexchars _ _ c (by simpa using h)

theorem mockHash_bytes_length (message : String) :
    (jsBufferFromHex (MockOracle.sha256 message).data).length = 32 := by
  apply jsb_length 32
  · have h := (mockSha256_shape message).1
    exact h
  · exact mockSha256_hexchars message

theorem ecdsaSign_inv (C : OracleCurve) [Fact (Nat.Prime C.p)] [Fact (Nat.Prime C.n)]
    (d z : ℕ) (rs : ℕ × ℕ) (h : ecdsaSign C d z = some rs) :
    ∃ (R : ZMod C.p × ZMod C.p) (r s : ZMod C.n),
      eMul C.p (1 + (z + d) % (C.n - 1)) (ecG C) = some R ∧
      r = ((R.1.val : ℕ) : ZMod C.n) ∧ r ≠ 0 ∧
      s = eInv C.n (((1 + (z + d) % (C.n - 1) : ℕ)) : ZMod C.n)
        * ((z : ZMod C.n) + r * (d : ZMod C.n)) ∧ s ≠ 0 ∧
      rs = (r.val, if C.n / 2 < s.val then (-s).val else s.val) := by
  unfold ecdsaSign at h
  simp only [] at h
  split at h
  · cases h
  · rename_i pt hpt
    split at h
    · cases h
    · rename_i hr0
      split at h
      · cases h
      · rename_i hs0
        simp only [Option.some.injEq] at h
        exact ⟨pt, _, _, hpt, rfl, hr0, rfl, hs0, h.symm⟩

theorem ecdsa_verify_of_sign (C : OracleCurve) [Fact (Nat.Prime C.p)] [Fact (Nat.Prime C.n)]
    (hp4 : C.p % 4 = 3) (hp256 : C.p < 2 ^ 256) (hn256 : C.n < 2 ^ 256)
    (hGeq : (C.gy : ZMod C.p) ^ 2 = (C.gx : ZMod C.p) ^ 3 + (C.b : ZMod C.p))
    (hGy : (C.gy : ZMod C.p) ≠ 0)
    (horder : eMul C.p C.n (ecG C) = none)
    (d : ℕ) (Qx Qy : ZMod C.p)
    (hQ : eMul C.p d (ecG C) = some (Qx, Qy))
    (z : ℕ) (rs : ℕ × ℕ)
    (hsign : ecdsaSign C d z = some rs)
    (hashBytes : List Nat) (hhlen : hashBytes.length = 32) (hz : beNat hashBytes = z) :
    ecdsaVerify C (compressPoint C (Qx, Qy)) hashBytes
      (natToBytesBE 32 rs.1 ++ natToBytesBE 32 rs.2) = .ok true := by
  haveI : NeZero C.n := ⟨(Fact.out : Nat.Prime C.n).ne_zero⟩
  have hp2 : C.p % 2 = 1 := by omega
  have hn2 : 2 ≤ C.n := (Fact.out : Nat.Prime C.n).two_le
  obtain ⟨R, r, s, hR, hr_def, hr0, hs_def, hs0, hrs⟩ := ecdsaSign_inv C d z rs hsign
  set k := 1 + (z + d) % (C.n - 1) with hkdef
  have hk_lt : k < C.n := by
    have h1 := Nat.mod_lt (z + d) (show 0 < C.n - 1 from by omega)
    omega
  have hk_pos : 0 < k := by omega
  set Pg : (oracleW C).Point :=
    WeierstrassCurve.Affine.Point.some (oracle_nonsingular C _ _ hp2 hGeq hGy) with hPgdef
  have hPgE : ptoE C Pg = ecG C := rfl
  have hordP : C.n • Pg = 0 := by
    have h1 : ptoE C (C.n • Pg) = none := by rw [ptoE_smul C hp2, hPgE, horder]
    cases hcase : (C.n • Pg) with
    | zero => rfl
    | some hns => rw [hcase] at h1; simp [ptoE] at h1
  have hQeq : Qy ^ 2 = Qx ^ 3 + (C.b : ZMod C.p) := by
    have h1 : ptoE C (d • Pg) = some (Qx, Qy) := by rw [ptoE_smul C hp2, hPgE, hQ]
    cases hcase : (d • Pg) with
    | zero => rw [hcase] at h1; simp [ptoE] at h1
    | @some x y hns =>
      rw [hcase] at h1
      simp only [ptoE, Option.some.injEq, Prod.mk.injEq] at h1
      obtain ⟨hx, hy⟩ := h1
      rw [← hx, ← hy]
      exact (oracle_equation C x y).mp hns.1
  set sv := if C.n / 2 < s.val then (-s).val else s.val with hsvdef
  have hgoal_rw : natToBytesBE 32 rs.1 ++ natToBytesBE 32 rs.2
      = natToBytesBE 32 r.val ++ natToBytesBE 32 sv := by rw [hrs]
  rw [hgoal_rw]
  have hsig_take : (natToBytesBE 32 r.val ++ natToBytesBE 32 sv).take 32
      = natToBytesBE 32 r.val := by
    have h1 := take_append_len (natToBytesBE 32 r.val) (natToBytesBE 32 sv)
    rwa [natToBytesBE_length] at h1
  have hsig_drop : (natToBytesBE 32 r.val ++ natToBytesBE 32 sv).drop 32
      = natToBytesBE 32 sv := by
    have h1 := List.drop_left (natToBytesBE 32 r.val) (natToBytesBE 32 sv)
    rwa [natToBytesBE_length] at h1
  have h8_32 : (8 : ℕ) * 32 = 256 := by norm_num
  have hrv_round : beNat (natToBytesBE 32 r.val) = r.val :=
    beNat_natToBytesBE 32 r.val (by rw [h8_32]; exact lt_trans (ZMod.val_lt r) hn256)
  have hsv_lt : sv < C.n := by
    rw [hsvdef]
    split
    · exact ZMod.val_lt _
    · exact ZMod.val_lt _
  have hsv_round : beNat (natToBytesBE 32 sv) = sv :=
    beNat_natToBytesBE 32 sv (by rw [h8_32]; omega)
  have hsv_ne : sv ≠ 0 := by
    rw [hsvdef]
    split
    · intro hcon
      exact hs0 (neg_eq_zero.mp ((ZMod.val_eq_zero _).mp hcon))
    · intro hcon
      exact hs0 ((ZMod.val_eq_zero _).mp hcon)
  have hrv_ne : r.val ≠ 0 := fun hcon => hr0 ((ZMod.val_eq_zero r).mp hcon)
  unfold ecdsaVerify
  rw [if_neg (by simp [natToBytesBE_length])]
  rw [if_neg (by simp [hhlen])]
  rw [decompress_compress C hp4 hp256 Qx Qy hQeq]
  simp only [hsig_take, hsig_drop, hrv_round, hsv_round, hz, ZMod.natCast_zmod_val]
  rw [if_neg (by push_neg; exact ⟨ZMod.val_lt r, hsv_lt⟩)]
  rw [if_neg (by push_neg; exact ⟨hrv_ne, hsv_ne⟩)]
  set w : ZMod C.n := eInv C.n ((sv : ℕ) : ZMod C.n) with hwdef
  set zc : ZMod C.n := ((z : ℕ) : ZMod C.n) with hzcdef
  have hkbar : ((k : ℕ) : ZMod C.n) ≠ 0 := by
    intro hcon
    rw [ZMod.natCast_zmod_eq_zero_iff_dvd] at hcon
    have := Nat.le_of_dvd hk_pos hcon
    omega
  have hA : zc + r * (d : ZMod C.n) = s * ((k : ℕ) : ZMod C.n) := by
    rw [hs_def, eInv_eq_inv _ _ hkbar]
    field_simp
  have hQpt : (some (Qx, Qy) : EPoint C.p) = ptoE C (d • Pg) := by
    rw [ptoE_smul C hp2, hPgE, hQ]
  set m : ℕ := (zc * w).val + (r * w).val * d with hmdef
  have hsum : eAdd C.p (eMul C.p (zc * w).val (ecG C))
      (eMul C.p ((r * w).val) (some (Qx, Qy))) = ptoE C (m • Pg) := by
    rw [hQpt, ← hPgE, ← ptoE_smul C hp2, ← ptoE_smul C hp2, ← ptoE_add C hp2]
    congr 1
    rw [hmdef, add_nsmul]
    congr 1
    rw [← mul_nsmul Pg d ((r * w).val), Nat.mul_comm]
  have hkPg : ptoE C (k • Pg) = some R := by
    rw [ptoE_smul C hp2, hPgE]
    exact hR
  have hmain : ∃ yy, eAdd C.p (eMul C.p (zc * w).val (ecG C))
      (eMul C.p ((r * w).val) (some (Qx, Qy))) = some (R.1, yy) := by
    by_cases hS : C.n / 2 < s.val
    · have hσ : ((sv : ℕ) : ZMod C.n) = -s := by
        rw [hsvdef, if_pos hS, ZMod.natCast_zmod_val]
      have hm : ((m : ℕ) : ZMod C.n) = ((C.n - k : ℕ) : ZMod C.n) := by
        rw [hmdef]
        push_cast
        rw [ZMod.natCast_zmod_val, ZMod.natCast_zmod_val]
        rw [hwdef, hσ, eInv_eq_inv _ _ (neg_ne_zero.mpr hs0)]
        rw [Nat.cast_sub (le_of_lt hk_lt), ZMod.natCast_self]
        have hcalc : zc * (-s)⁻¹ + r * (-s)⁻¹ * (d : ZMod C.n)
            = (zc + r * (d : ZMod C.n)) * (-s)⁻¹ := by ring
        rw [hcalc, hA, inv_neg]
        field_simp
        ring
      have hmPg : m • Pg = (C.n - k) • Pg := smul_congr_mod C.n Pg hordP m (C.n - k) hm
      have hnk : (C.n - k) • Pg = -(k • Pg) := by
        apply eq_neg_of_add_eq_zero_left
        rw [← add_nsmul, show C.n - k + k = C.n from by omega, hordP]
      refine ⟨-R.2, ?_⟩
      rw [hsum, hmPg, hnk, ptoE_neg, hkPg]
      rfl
    · have hσ : ((sv : ℕ) : ZMod C.n) = s := by
        rw [hsvdef, if_neg hS, ZMod.natCast_zmod_val]
      have hm : ((m : ℕ) : ZMod C.n) = ((k : ℕ) : ZMod C.n) := by
        rw [hmdef]
        push_cast
        rw [ZMod.natCast_zmod_val, ZMod.natCast_zmod_val]
        rw [hwdef, hσ, eInv_eq_inv _ _ hs0]
        have hcalc : zc * s⁻¹ + r * s⁻¹ * (d : ZMod C.n)
            = (zc + r * (d : ZMod C.n)) * s⁻¹ := by ring
        rw [hcalc, hA]
        field_simp
      have hmPg : m • Pg = k • Pg := smul_congr_mod C.n Pg hordP m k hm
      refine ⟨R.2, ?_⟩
      rw [hsum, hmPg, hkPg]
  obtain ⟨yy, hyy⟩ := hmain
  rw [hyy]
  simp only [Except.ok.injEq]
  rw [decide_eq_true_eq]
  show ((R.1.val : ℕ) : ZMod C.n) = r
  exact hr_def.symm

/-- C4: verifying a freshly issued certificate succeeds.  The curve context
is constrained to an elliptic-curve group as the spec assumes: `p ≡ 3 mod 4`,
a nonsingular base point of prime order `n`, and an oracle key pair whose
stored public key is the compressed point of the private scalar. -/
theorem claim_C4 (C : OracleCurve) [Fact (Nat.Prime C.p)] [Fact (Nat.Prime C.n)]
    (kp : OracleKeyPair) (trustId personName : String) (timestamp : Nat)
    (cert : Certificate) (Qx Qy : ZMod C.p)
    (hp4 : C.p % 4 = 3) (hp256 : C.p < 2 ^ 256) (hn256 : C.n < 2 ^ 256)
    (hGeq : (C.gy : ZMod C.p) ^ 2 = (C.gx : ZMod C.p) ^ 3 + (C.b : ZMod C.p))
    (hGy : (C.gy : ZMod C.p) ≠ 0)
    (horder : eMul C.p C.n (ecG C) = none)
    (hQ : eMul C.p kp.privateKey (ecG C) = some (Qx, Qy))
    (hpub : jsBufferFromHex kp.publicKey.data = compressPoint C (Qx, Qy))
    (hissue : MockOracle.issueDeathCertificate C kp trustId personName timestamp
      = some cert) :
    MockOracle.verifyCertificate C cert = true := by
  unfold MockOracle.issueDeathCertificate at hissue
  simp only [] at hissue
  split at hissue
  · cases hissue
  · rename_i rs hsign
    simp only [Option.some.injEq] at hissue
    set msg := "DEATH_CERT:" ++ trustId ++ ":" ++ personName ++ ":" ++ natToDec timestamp
      with hmsg
    set mh := jsBufferFromHex (MockOracle.sha256 msg).data with hmh
    have hf1 : cert.oraclePublicKey = kp.publicKey := by rw [← hissue]
    have hf2 : cert.messageHash = bytesToHex mh := by rw [← hissue]
    have hf3 : cert.signature
        = bytesToHex (natToBytesBE 32 rs.1 ++ natToBytesBE 32 rs.2) := by rw [← hissue]
    have hmh_rt : jsBufferFromHex (bytesToHex mh).data = mh :=
      jsBufferFromHex_bytesToHex mh (jsBufferFromHex_lt _)
    have hsig_rt :
        jsBufferFromHex (bytesToHex (natToBytesBE 32 rs.1 ++ natToBytesBE 32 rs.2)).data
        = natToBytesBE 32 rs.1 ++ natToBytesBE 32 rs.2 := by
      apply jsBufferFromHex_bytesToHex
      intro b hb
      rcases List.mem_append.mp hb with h | h
      · exact natToBytesBE_lt _ _ b h
      · exact natToBytesBE_lt _ _ b h
    have hverify := ecdsa_verify_of_sign C hp4 hp256 hn256 hGeq hGy horder
      kp.privateKey Qx Qy hQ (beNat mh) rs hsign mh (mockHash_bytes_length msg) rfl
    unfold MockOracle.verifyCertificate MockOracle.verifyInner
    rw [hf1, hf2, hf3, hpub, hmh_rt, hsig_rt, hverify]

theorem claim_C4_witness :
    MockOracle.verifyCertificate toyCurve
      { trustId := "tb1pabcdef"
        personName := "Bob"
        timestamp := 255
        message := "DEATH_CERT:tb1pabcdef:Bob:255"
        messageHash := "0000000000000000000000000000000000000000000000000000000019db2a72"
        signature := "00000000000000000000000000000000000000000000000000000000000000380000000000000000000000000000000000000000000000000000000000000013"
        oraclePublicKey := "02000000000000000000000000000000000000000000000000000000000000002e"
        certificateId := "CERT-TB1PABCD-FF" } = true :=
  claim_C4 toyCurve toyKeyPair "tb1pabcdef" "Bob" 255 _ 46 40
    (by decide) (by decide) (by decide) (by decide) (by decide) (by decide) (by decide)
    (by decide) (by decide)
